import Mathlib

/-!
# Transaction-Risk-Monitoring : verification of the request-processing pipeline

Shallow embedding of the repository's core pipeline:

* `src/graph/state.py`        — `RiskWorkflowState`
* `src/middleware/pii.py`     — `mask_customer_id`, `scrub_free_text`
* `src/middleware/call_limits.py` — `check_tool_call_limit`, `check_model_call_limit`
* `src/scoring_engine/model.py` — `TIERS`, `_minmax`, `compute_score`
* `src/graph/nodes/*.py`      — intake, scoring, router, hitl, output nodes
* `src/graph/workflow.py`     — `_build_sequential_runner`

Numbers are modelled as `ℚ` (Python floats), strings as `String` / `List Char`
with ASCII character classes, fallible code as `Except`/`Option`.
-/

set_option maxHeartbeats 1000000

namespace RiskMonitoring

/-! ## Basic helpers (Python string semantics) -/

/-- Python's `str.strip()` : drop whitespace from both ends. -/
def pyStrip (s : String) : String :=
  String.mk (((s.data.dropWhile Char.isWhitespace).reverse.dropWhile
      Char.isWhitespace).reverse)

/-- Python's `str.lower()` restricted to ASCII. -/
def pyLower (s : String) : String := String.mk (s.data.map Char.toLower)

/-! ## `middleware/pii.py` : `mask_customer_id` -/

/-- `mask_customer_id` from `src/middleware/pii.py`:
empty id ↦ `"UNKNOWN"`; otherwise all but the last `min 2 n` characters are
replaced by `max 4 (n - visible)` asterisks. -/
def mask_customer_id (customer_id : String) : String :=
  let n := customer_id.data.length
  if n = 0 then "UNKNOWN"
  else
    let visible_chars := min 2 n
    let visible := customer_id.data.drop (n - visible_chars)
    String.mk (List.replicate (max 4 (n - visible_chars)) '*' ++ visible)

/-! ## `scoring_engine/model.py` : tiers and scoring -/

/-- `TIERS` from `src/scoring_engine/model.py` (descending thresholds). -/
def TIERS : List (ℚ × String) :=
  [(55, "CRITICAL"), (40, "HIGH"), (20, "MEDIUM"), (0, "LOW")]

/-- `tier = next(t for threshold, t in TIERS if score >= threshold)`.
`none` models the `StopIteration` raised when no threshold qualifies. -/
def tierOf (score : ℚ) : Option String :=
  (TIERS.find? (fun p => decide (p.1 ≤ score))).map (·.2)

/-- `_minmax` from `src/scoring_engine/model.py`. -/
def _minmax (value vmin vmax : ℚ) : ℚ :=
  if vmax = vmin then 0 else max 0 (min 1 ((value - vmin) / (vmax - vmin)))

def TXN_COUNT_MIN : ℚ := 2
def TXN_COUNT_MAX : ℚ := 72
def AVG_AMT_MIN : ℚ := 12
def AVG_AMT_MAX : ℚ := 4500

/-- Rounding to 2 decimal places (`round(x, 2)`; tie behaviour immaterial to
every claim below — no claim depends on exact half-way values). -/
def round2 (q : ℚ) : ℚ := (round (q * 100) : ℤ) / 100

/-- Customer feature dict (`customer_features`); `none` = key absent or `None`. -/
structure Features where
  txn_count : Option ℚ
  avg_txn_amount : Option ℚ
  high_risk_country : Option ℚ
  deriving Repr, DecidableEq

def REQUIRED_FIELDS : List String := ["txn_count", "avg_txn_amount", "high_risk_country"]

/-- Per-feature breakdown entry (raw, normalized, weight, contribution). -/
structure FeatureDetail where
  raw_value : ℚ
  normalized_score : ℚ
  weight : ℚ
  weighted_contribution : ℚ
  deriving Repr, DecidableEq

/-- `ScoringResult` from `src/scoring_engine/model.py`. -/
structure ScoringResult where
  score : ℚ
  tier : String
  breakdown : List (String × FeatureDetail)
  missing_fields : List String
  explainability_text : String
  deriving Repr, DecidableEq

/-- Render a rational for explanation strings (stand-in for Python float
formatting; only non-emptiness of the text ever matters). -/
def fmtQ (q : ℚ) : String := toString q.num ++ "/" ++ toString q.den

/-- `_build_explanation` (header lines; the tabular body carries no
claim-relevant content beyond being a non-empty string). -/
def _build_explanation (score : ℚ) (tier : String) (raw_score : ℚ) : String :=
  "Risk Score   : " ++ fmtQ score ++ " / 100  (raw: " ++ fmtQ raw_score ++ ")\n" ++
  "Risk Tier    : " ++ tier

/-- `compute_score` from `src/scoring_engine/model.py`.  `none` models the
uncaught `StopIteration` from the tier lookup when the score is negative. -/
def compute_score (customer_data : Features) : Option ScoringResult :=
  let missing :=
    (if customer_data.txn_count.isNone then ["txn_count"] else []) ++
    (if customer_data.avg_txn_amount.isNone then ["avg_txn_amount"] else []) ++
    (if customer_data.high_risk_country.isNone then ["high_risk_country"] else [])
  if missing ≠ [] then
    some { score := 0, tier := "UNKNOWN", breakdown := [], missing_fields := missing,
           explainability_text := "Score cannot be computed. Missing fields." }
  else
    let txn := customer_data.txn_count.getD 0
    let amt := customer_data.avg_txn_amount.getD 0
    let hrc := customer_data.high_risk_country.getD 0
    let txn_norm := _minmax txn TXN_COUNT_MIN TXN_COUNT_MAX
    let amt_norm := _minmax amt AVG_AMT_MIN AVG_AMT_MAX
    let raw_score := (40/100 : ℚ) * txn_norm + (40/100 : ℚ) * amt_norm + (20/100 : ℚ) * hrc
    let score := round2 (raw_score * 100)
    match tierOf score with
    | none => none
    | some tier =>
      let breakdown :=
        [("txn_count", ⟨txn, txn_norm, 40/100, round2 (txn_norm * (40/100) * 100)⟩),
         ("avg_txn_amount", ⟨amt, amt_norm, 40/100, round2 (amt_norm * (40/100) * 100)⟩),
         ("high_risk_country", ⟨hrc, hrc, 20/100, round2 (hrc * (20/100) * 100)⟩)]
      some { score := score, tier := tier, breakdown := breakdown, missing_fields := [],
             explainability_text := _build_explanation score tier raw_score }

/-! ## `middleware/pii.py` : `_PII_PATTERNS` and `scrub_free_text`

A faithful executable model of the four Python regexes and of `re.sub` /
`re.search` over them, with Python's word-boundary (`\b`) semantics restricted
to ASCII character classes.

* `ssn` : `\b\d{3}-\d{2}-\d{4}\b`
* `email` : `\b[A-Za-z0-9._%+-]+@[A-Za-z0-9.-]+\.[A-Z|a-z]{2,}\b`
* `phone` : `\b(\+?1[-.\s]?)?\(?\d{3}\)?[-.\s]?\d{3}[-.\s]?\d{4}\b`
* `account_num` : `\b\d{10,16}\b`

The first three patterns (digit-built ones) are modelled as a finite list of
alternation-free "shapes" enumerated in Python's backtracking order; the email
pattern gets a bespoke backtracking matcher.  `re.sub` scans left to right,
replaces the leftmost match and resumes after it. -/

/-- Python `\w` (ASCII): letters, digits, underscore. -/
def wordChar (c : Char) : Bool := c.isAlphanum || c = '_'

/-- Word-ness of an optional character (string edge counts as non-word). -/
def wordOpt (c : Option Char) : Bool := (c.map wordChar).getD false

/-- The phone separator class `[-.\s]` (ASCII). -/
def sepChar (c : Char) : Bool := c = '-' || c = '.' || c.isWhitespace

/-- Email local-part class `[A-Za-z0-9._%+-]`. -/
def localChar (c : Char) : Bool :=
  c.isAlphanum || c = '.' || c = '_' || c = '%' || c = '+' || c = '-'

/-- Email domain class `[A-Za-z0-9.-]`. -/
def domainChar (c : Char) : Bool := c.isAlphanum || c = '.' || c = '-'

/-- Email TLD class `[A-Z|a-z]` (note: contains a literal `|`). -/
def tldChar (c : Char) : Bool := c.isAlpha || c = '|'

/-- One atom of an alternation-free regex shape. -/
inductive Atom
  | digits (n : ℕ)
  | lit (c : Char)
  | sep
  deriving Repr, DecidableEq

/-- Consume a shape from the front of a string: returns (matched span, rest). -/
def consume : List Atom → List Char → Option (List Char × List Char)
  | [], s => some ([], s)
  | Atom.digits n :: as, s =>
      let d := s.take n
      if d.length = n ∧ d.all Char.isDigit then
        (consume as (s.drop n)).map (fun p => (d ++ p.1, p.2))
      else none
  | Atom.lit _ :: _, [] => none
  | Atom.lit c :: as, x :: s =>
      if x = c then (consume as s).map (fun p => (x :: p.1, p.2)) else none
  | Atom.sep :: _, [] => none
  | Atom.sep :: as, x :: s =>
      if sepChar x then (consume as s).map (fun p => (x :: p.1, p.2)) else none

/-- Match one shape at the current position: consume it and check the leading
and trailing `\b` assertions.  `pw` is the word-ness of the previous char. -/
def shapeMatch (sh : List Atom) (pw : Bool) (s : List Char) : Option ℕ :=
  match consume sh s with
  | none => none
  | some (span, rest) =>
      if span ≠ [] ∧ (pw != wordOpt span.head?) ∧
         (wordOpt span.getLast? != wordOpt rest.head?) then some span.length
      else none

/-- Match a shape-list pattern: first shape (in backtracking order) that
matches wins — exactly Python's backtracking over optional pieces. -/
def patM (shapes : List (List Atom)) (pw : Bool) (s : List Char) : Option ℕ :=
  shapes.findSome? (fun sh => shapeMatch sh pw s)

/-- `\b\d{3}-\d{2}-\d{4}\b`. -/
def ssnShapes : List (List Atom) :=
  [[Atom.digits 3, Atom.lit '-', Atom.digits 2, Atom.lit '-', Atom.digits 4]]

/-- `\b\d{10,16}\b` — greedy: longer runs preferred. -/
def acctShapes : List (List Atom) :=
  [[Atom.digits 16], [Atom.digits 15], [Atom.digits 14], [Atom.digits 13],
   [Atom.digits 12], [Atom.digits 11], [Atom.digits 10]]

/-- `(\+?1[-.\s]?)?\(?\d{3}\)?[-.\s]?\d{3}[-.\s]?\d{4}` expanded into its 80
alternation-free shapes, enumerated in Python's backtracking order (earlier
optional pieces vary slowest, greedy "present" alternatives first). -/
def phoneShapes : List (List Atom) :=
  ([[Atom.lit '+', Atom.lit '1', Atom.sep], [Atom.lit '+', Atom.lit '1'],
    [Atom.lit '1', Atom.sep], [Atom.lit '1'], []]).flatMap (fun g =>
  ([[Atom.lit '('], []]).flatMap (fun lp =>
  ([[Atom.lit ')'], []]).flatMap (fun rp =>
  ([[Atom.sep], []]).flatMap (fun s2 =>
  ([[Atom.sep], []]).map (fun s3 =>
    g ++ lp ++ [Atom.digits 3] ++ rp ++ s2 ++ [Atom.digits 3] ++ s3 ++ [Atom.digits 4])))))

def ssnM : Bool → List Char → Option ℕ := patM ssnShapes
def phoneM : Bool → List Char → Option ℕ := patM phoneShapes
def acctM : Bool → List Char → Option ℕ := patM acctShapes

/-- Descending search `k, k-1, …, 1` for the first success — the order in
which a greedy bounded repetition backtracks. -/
def descFind {α : Type} (f : ℕ → Option α) : ℕ → Option α
  | 0 => none
  | Nat.succ k => match f (k + 1) with
      | some r => some r
      | none => descFind f k

/-- The email matcher: local part is the maximal `localChar` run (no
backtracking is possible since `@` is not in the class), then the domain
length `k` and TLD length `j` are chosen greedily with backtracking, exactly
as Python does.  Returns the length of the chosen match. -/
def emailM (pw : Bool) (s : List Char) : Option ℕ :=
  let a := s.takeWhile localChar
  match a with
  | [] => none
  | c :: _ =>
      if pw == wordChar c then none   -- leading \b fails
      else
        match s.drop a.length with
        | '@' :: s2 =>
            (descFind (fun k =>
              if 1 ≤ k then
                let b := s2.take k
                if b.length = k ∧ b.all domainChar ∧ s2.get? k = some '.' then
                  (descFind (fun j =>
                    if 2 ≤ j then
                      let c2 := (s2.drop (k + 1)).take j
                      if c2.length = j ∧ c2.all tldChar ∧
                         (wordOpt c2.getLast? != wordOpt (s2.drop (k + 1 + j)).head?) then
                        some (k + 1 + j)
                      else none
                    else none) (s2.length - k - 1))
                else none
              else none) (s2.length - 1)).map (fun m => a.length + 1 + m)
        | _ => none

/-- `re.search` over a matcher: scan left to right tracking the word-ness of
the previous character; true iff some position matches. -/
def searchF (M : Bool → List Char → Option ℕ) : Bool → List Char → Bool
  | _, [] => false
  | pw, c :: cs => (M pw (c :: cs)).isSome || searchF M (wordChar c) cs

/-- `re.sub` over a matcher: replace every (leftmost, non-overlapping) match
by `tok` and resume scanning after it, keeping the original previous-character
context.  (Our patterns never match the empty string; `n - 1` keeps the
recursion structural.) -/
def subAll (M : Bool → List Char → Option ℕ) (tok : List Char) :
    Bool → List Char → List Char
  | _, [] => []
  | pw, c :: cs =>
      match M pw (c :: cs) with
      | none => c :: subAll M tok (wordChar c) cs
      | some n =>
          tok ++ subAll M tok (wordChar ((cs.take (n - 1)).getLastD c)) (cs.drop (n - 1))
  termination_by _ s => s.length
  decreasing_by
    all_goals simp only [List.length_cons, List.length_drop]
    all_goals omega

def tokSSN : List Char := "[REDACTED-SSN]".data
def tokEMAIL : List Char := "[REDACTED-EMAIL]".data
def tokPHONE : List Char := "[REDACTED-PHONE]".data
def tokACCT : List Char := "[REDACTED-ACCOUNT_NUM]".data

/-- The pattern table `_PII_PATTERNS` with its replacement tokens, in Python
dict insertion order. -/
def piiPasses : List ((Bool → List Char → Option ℕ) × List Char × String) :=
  [(ssnM, tokSSN, "ssn"), (emailM, tokEMAIL, "email"),
   (phoneM, tokPHONE, "phone"), (acctM, tokACCT, "account_num")]

/-- `scrub_free_text` from `src/middleware/pii.py`: for each pattern in order,
if it occurs, substitute every occurrence and record the class name. -/
def scrub_free_text (text : String) : String × List String :=
  let r := piiPasses.foldl
    (fun (acc : List Char × List String) p =>
      if searchF p.1 false acc.1 then (subAll p.1 p.2.1 false acc.1, acc.2 ++ [p.2.2])
      else acc)
    (text.data, [])
  (String.mk r.1, r.2)

/-! ## `graph/state.py` : the shared workflow state -/

/-- The request payload (`raw_input`); `none` models an absent key. -/
structure Payload where
  intent : Option String := none
  customer_id : Option String := none
  notes : Option String := none
  customer_features : Option Features := none
  deriving Repr, DecidableEq

/-- `RiskWorkflowState` from `src/graph/state.py`. -/
structure RiskWorkflowState where
  run_id : String := ""
  timestamp : String := ""
  raw_input : Option Payload := none
  intent : Option String := none
  customer_id : Option String := none
  free_text_notes : Option String := none
  masked_customer_id : Option String := none
  pii_fields_redacted : List String := []
  moderation_passed : Option Bool := none
  moderation_reason : Option String := none
  risk_score : Option ℚ := none
  risk_tier : Option String := none
  score_breakdown : Option (List (String × FeatureDetail)) := none
  missing_fields : List String := []
  terminal_status : Option String := none
  route_taken : Option String := none
  hitl_triggered : Bool := false
  hitl_reviewer_action : Option String := none
  hitl_reviewer_notes : Option String := none
  hitl_edited_response : Option String := none
  final_response : Option String := none
  node_path : List String := []
  errors : List String := []
  tool_call_count : ℕ := 0
  model_call_count : ℕ := 0
  MAX_TOOL_CALLS : ℕ := 10
  MAX_MODEL_CALLS : ℕ := 5
  deriving Repr, DecidableEq

/-- Python `f"{o}"` of an `Optional[str]`. -/
def pyOptStr (o : Option String) : String := o.getD "None"

/-! ## `middleware/call_limits.py` -/

/-- Overage message of `check_tool_call_limit`. -/
def toolLimitMsg (maxCalls current : ℕ) : String :=
  "ToolCallLimitMiddleware: Limit of " ++ toString maxCalls ++
  " tool calls exceeded (current: " ++ toString current ++ "). Run aborted."

/-- Overage message of `check_model_call_limit`. -/
def modelLimitMsg (maxCalls current : ℕ) : String :=
  "ModelCallLimitMiddleware: Limit of " ++ toString maxCalls ++
  " model calls exceeded (current: " ++ toString current ++ "). Run aborted."

/-- `check_tool_call_limit`: increment, then fail if over the ceiling.  The
`Except.error` carries the mutated state that the raised
`CallLimitExceededError` leaves behind. -/
def check_tool_call_limit (state : RiskWorkflowState) (increment : Bool := true) :
    Except RiskWorkflowState RiskWorkflowState :=
  let state :=
    if increment then { state with tool_call_count := state.tool_call_count + 1 } else state
  if state.MAX_TOOL_CALLS < state.tool_call_count then
    Except.error { state with
      errors := state.errors ++ [toolLimitMsg state.MAX_TOOL_CALLS state.tool_call_count],
      terminal_status := some "ESCALATE",
      route_taken := some "tool_call_limit_exceeded" }
  else Except.ok state

/-- `check_model_call_limit`. -/
def check_model_call_limit (state : RiskWorkflowState) (increment : Bool := true) :
    Except RiskWorkflowState RiskWorkflowState :=
  let state :=
    if increment then { state with model_call_count := state.model_call_count + 1 } else state
  if state.MAX_MODEL_CALLS < state.model_call_count then
    Except.error { state with
      errors := state.errors ++ [modelLimitMsg state.MAX_MODEL_CALLS state.model_call_count],
      terminal_status := some "ESCALATE",
      route_taken := some "model_call_limit_exceeded" }
  else Except.ok state

/-! ## `graph/nodes/intake.py` -/

def VALID_INTENTS : List String := ["rescore", "suppress_flag", "explain_score"]

def emptyPayload : Payload := {}

/-- `intake_node` from `src/graph/nodes/intake.py`. -/
def intake_node (state : RiskWorkflowState) : RiskWorkflowState :=
  let state := { state with node_path := state.node_path ++ ["intake"] }
  let payload := state.raw_input.getD emptyPayload
  let intent := pyStrip (pyLower (payload.intent.getD ""))
  if ¬ VALID_INTENTS.contains intent then
    { state with
      errors := state.errors ++ ["Intake: Unknown or missing intent '" ++ intent ++
        "'. Valid values: ['explain_score', 'rescore', 'suppress_flag']"],
      terminal_status := some "NEED_INFO",
      route_taken := some "invalid_intent" }
  else
    let state := { state with intent := some intent, customer_id := payload.customer_id }
    if payload.customer_id.getD "" = "" then
      { state with
        errors := state.errors ++ ["Intake: customer_id is required."],
        terminal_status := some "NEED_INFO",
        route_taken := some "missing_customer_id" }
    else
      { state with free_text_notes := some (payload.notes.getD "") }

/-! ## `middleware/pii.py` : the LangGraph node -/

/-- `run_pii_middleware` from `src/middleware/pii.py`. -/
def run_pii_middleware (state : RiskWorkflowState) : RiskWorkflowState :=
  let state := { state with node_path := state.node_path ++ ["pii_middleware"] }
  let state :=
    if state.customer_id.getD "" ≠ "" then
      { state with
        masked_customer_id := some (mask_customer_id (state.customer_id.getD "")),
        pii_fields_redacted := state.pii_fields_redacted ++ ["customer_id"] }
    else state
  if state.free_text_notes.getD "" ≠ "" then
    let r := scrub_free_text (state.free_text_notes.getD "")
    { state with free_text_notes := some r.1,
                 pii_fields_redacted := state.pii_fields_redacted ++ r.2 }
  else state

/-! ## `middleware/moderation.py` -/

def _FLAGGED_KEYWORDS : List String :=
  ["kill", "threat", "harm", "discriminat", "racist", "sexist",
   "fabricat", "fake", "falsif", "bribe"]

/-- Python's `pat in s` substring test. -/
def isSubstr (pat : List Char) : List Char → Bool
  | [] => pat.isEmpty
  | c :: tl => pat.isPrefixOf (c :: tl) || isSubstr pat tl

/-- `_heuristic_moderate`: first flagged keyword wins (case-insensitive). -/
def _heuristic_moderate (text : String) : Bool × String :=
  let lower := pyLower text
  match _FLAGGED_KEYWORDS.find? (fun kw => isSubstr kw.data lower.data) with
  | some kw => (false, "Flagged by heuristic moderation: keyword '" ++ kw ++ "' detected.")
  | none => (true, "Passed heuristic moderation.")

/-- `run_moderation_middleware`, with the external/heuristic classifier as the
pluggable capability `moderate` (the spec's moderation capability boundary). -/
def run_moderation_middleware (moderate : String → Bool × String)
    (state : RiskWorkflowState) : RiskWorkflowState :=
  let state := { state with node_path := state.node_path ++ ["moderation_middleware"] }
  if state.free_text_notes.getD "" = "" ∨ pyStrip (state.free_text_notes.getD "") = "" then
    { state with moderation_passed := some true,
                 moderation_reason := some "No free-text notes to moderate." }
  else
    let r := moderate (state.free_text_notes.getD "")
    { state with moderation_passed := some r.1, moderation_reason := some r.2 }

/-! ## `graph/nodes/scoring.py` -/

/-- `scoring_node`: guarded by the tool-call limit; `Except.error` models an
exception escaping the node (limit overage or the tier-lookup
`StopIteration`). -/
def scoring_node (state : RiskWorkflowState) :
    Except RiskWorkflowState RiskWorkflowState := do
  let state := { state with node_path := state.node_path ++ ["scoring"] }
  let state ← check_tool_call_limit state true
  let payload := state.raw_input.getD emptyPayload
  match payload.customer_features with
  | none =>
      Except.ok { state with
        missing_fields := ["customer_features"],
        errors := state.errors ++ ["Scoring: No customer_features provided in payload."] }
  | some features =>
      match compute_score features with
      | none => Except.error state
      | some result =>
          let state := { state with
            risk_score := some result.score,
            risk_tier := some result.tier,
            score_breakdown := some result.breakdown,
            missing_fields := result.missing_fields }
          if state.intent = some "explain_score" then
            Except.ok { state with free_text_notes := some ((state.free_text_notes.getD "")
              ++ "\n\n[EXPLAINABILITY REPORT]\n" ++ result.explainability_text) }
          else Except.ok state

/-! ## `graph/nodes/router.py` -/

/-- `router_node` from `src/graph/nodes/router.py`: strict priority order. -/
def router_node (state : RiskWorkflowState) : RiskWorkflowState :=
  let state := { state with node_path := state.node_path ++ ["router"] }
  if state.terminal_status ≠ none then state
  else if state.moderation_passed = some false then
    { state with terminal_status := some "ESCALATE",
                 route_taken := some "moderation_failure" }
  else if state.missing_fields ≠ [] then
    { state with terminal_status := some "NEED_INFO",
                 route_taken := some "missing_data" }
  else
    let score := state.risk_score.getD 0
    let tier := if state.risk_tier.getD "" = "" then "UNKNOWN" else state.risk_tier.getD ""
    if state.intent = some "suppress_flag" ∧ 40 ≤ score then
      { state with terminal_status := some "ESCALATE",
                   route_taken := some "suppress_high_risk_review" }
    else if tier = "CRITICAL" then
      { state with terminal_status := some "ESCALATE",
                   route_taken := some "critical_risk_auto_escalate" }
    else if tier = "HIGH" then
      { state with terminal_status := some "ESCALATE",
                   route_taken := some "high_risk_escalate" }
    else
      { state with terminal_status := some "READY",
                   route_taken := some (pyLower tier ++ "_risk_auto_approved") }

/-! ## `graph/nodes/hitl.py` -/

/-- The reviewer interaction: `auto` is the non-interactive path
(`auto_approve` flag or no tty); the rest model a human's console input. -/
inductive ReviewerInput
  | auto
  | approve (notes : String)
  | edit (text : String) (notes : String)
  | reject (notes : String)
  deriving Repr, DecidableEq

/-- `_generate_draft_response` (fixed text). -/
def _generate_draft_response : String :=
  "Thank you for your patience. We have received your request and it is currently " ++
  "being reviewed by one of our compliance officers. This is a standard part of our " ++
  "process to ensure your account is protected. Please call us back and a member of " ++
  "our team will be happy to walk you through the next steps."

/-- The fixed annotation recorded on automatic approval. -/
def AUTO_NOTES : String := "Auto-approved (non-interactive mode)"

/-- `hitl_node` from `src/graph/nodes/hitl.py`. -/
def hitl_node (input : ReviewerInput) (state : RiskWorkflowState) : RiskWorkflowState :=
  let state := { state with node_path := state.node_path ++ ["hitl"] }
  if state.terminal_status ≠ some "ESCALATE" then state
  else
    let state := { state with hitl_triggered := true }
    let draft := _generate_draft_response
    match input with
    | ReviewerInput.auto =>
        { state with hitl_reviewer_action := some "approve",
                     hitl_reviewer_notes := some AUTO_NOTES,
                     final_response := some draft }
    | ReviewerInput.approve notes =>
        let n := pyStrip notes
        { state with hitl_reviewer_notes := if n = "" then none else some n,
                     hitl_reviewer_action := some "approve",
                     final_response := some draft }
    | ReviewerInput.edit text notes =>
        let n := pyStrip notes
        let e := pyStrip text
        { state with hitl_reviewer_notes := if n = "" then none else some n,
                     hitl_reviewer_action := some "edit",
                     hitl_edited_response := some e,
                     final_response := some e }
    | ReviewerInput.reject notes =>
        let n := pyStrip notes
        { state with hitl_reviewer_notes := if n = "" then none else some n,
                     hitl_reviewer_action := some "reject",
                     final_response := some ("[REJECTED BY REVIEWER] Customer " ++
                       pyOptStr state.masked_customer_id ++
                       ": This case has been rejected and flagged for further investigation. " ++
                       "Notes: " ++ (if n = "" then "None provided." else n)) }

/-! ## `graph/nodes/output.py` -/

/-- `_build_final_response_if_missing` from `src/graph/nodes/output.py`. -/
def _build_final_response_if_missing (state : RiskWorkflowState) : String :=
  if state.final_response.getD "" ≠ "" then state.final_response.getD ""
  else
    let cid := if state.masked_customer_id.getD "" = "" then "UNKNOWN"
               else state.masked_customer_id.getD ""
    if state.terminal_status = some "READY" then
      match state.intent with
      | some "rescore" =>
          "Customer " ++ cid ++ " has been re-scored. Risk score: " ++
          fmtQ (state.risk_score.getD 0) ++ " (" ++ pyOptStr state.risk_tier ++
          " tier). Status: Cleared for normal processing."
      | some "suppress_flag" =>
          "Flag suppression for customer " ++ cid ++ " has been approved. Risk score: " ++
          fmtQ (state.risk_score.getD 0) ++ " (" ++ pyOptStr state.risk_tier ++
          " tier). The flag has been suppressed as requested."
      | some "explain_score" =>
          "Score explanation for customer " ++ cid ++ ": Risk score " ++
          fmtQ (state.risk_score.getD 0) ++ " (" ++ pyOptStr state.risk_tier ++
          " tier). See score breakdown for feature-level detail."
      | _ => "Request for customer " ++ cid ++ " processed. Status: READY."
    else if state.terminal_status = some "NEED_INFO" then
      let missing := if state.missing_fields ≠ [] then
          String.intercalate ", " state.missing_fields else "unspecified fields"
      let errs := if state.errors ≠ [] then String.intercalate " | " state.errors else ""
      pyStrip ("Cannot process request for customer " ++ cid ++
        ". Additional information required: " ++ missing ++ ". " ++ errs)
    else
      "Request for customer " ++ cid ++ " completed with status: " ++
      pyOptStr state.terminal_status ++ "."

/-- The audit record assembled by `_build_audit_log` (no raw PII fields). -/
structure AuditLog where
  run_id : String
  timestamp : String
  intent : Option String
  customer_id_masked : String
  terminal_status : Option String
  route_taken : Option String
  node_path : List String
  risk_score : Option ℚ
  risk_tier : Option String
  pii_fields_redacted : List String
  moderation_passed : Option Bool
  moderation_reason : Option String
  missing_fields : List String
  hitl_triggered : Bool
  hitl_reviewer_action : Option String
  hitl_reviewer_notes : Option String
  tool_call_count : ℕ
  model_call_count : ℕ
  errors : List String
  deriving Repr, DecidableEq

/-- `_build_audit_log` from `src/graph/nodes/output.py`. -/
def _build_audit_log (state : RiskWorkflowState) : AuditLog :=
  { run_id := state.run_id,
    timestamp := state.timestamp,
    intent := state.intent,
    customer_id_masked := if state.masked_customer_id.getD "" = "" then "NOT_SET"
                          else state.masked_customer_id.getD "",
    terminal_status := state.terminal_status,
    route_taken := state.route_taken,
    node_path := state.node_path,
    risk_score := state.risk_score,
    risk_tier := state.risk_tier,
    pii_fields_redacted := state.pii_fields_redacted,
    moderation_passed := state.moderation_passed,
    moderation_reason := state.moderation_reason,
    missing_fields := state.missing_fields,
    hitl_triggered := state.hitl_triggered,
    hitl_reviewer_action := state.hitl_reviewer_action,
    hitl_reviewer_notes := state.hitl_reviewer_notes,
    tool_call_count := state.tool_call_count,
    model_call_count := state.model_call_count,
    errors := state.errors }

/-- `output_node` (state mutation only; console/file IO is outside the model). -/
def output_node (state : RiskWorkflowState) : RiskWorkflowState :=
  let state := { state with node_path := state.node_path ++ ["output"] }
  { state with final_response := some (_build_final_response_if_missing state) }

/-! ## `graph/workflow.py` : the sequential runner -/

/-- Fresh state for a payload (`RiskWorkflowState(raw_input=payload)`), with
run identity passed in (generated by `uuid`/clock in the source). -/
def initState (run_id timestamp : String) (payload : Payload) : RiskWorkflowState :=
  { run_id := run_id, timestamp := timestamp, raw_input := some payload }

/-- `_build_sequential_runner` from `src/graph/workflow.py`: the fixed node
sequence with its two conditional edges.  There is no try/except around any
node, so an exception from `scoring_node` propagates (`Except.error`). -/
def runPipeline (moderate : String → Bool × String) (input : ReviewerInput)
    (state0 : RiskWorkflowState) : Except RiskWorkflowState RiskWorkflowState := do
  let state := intake_node state0
  if state.terminal_status = some "NEED_INFO" then
    return output_node state
  else
    let state := run_pii_middleware state
    let state := run_moderation_middleware moderate state
    let state ← scoring_node state
    let state := router_node state
    let state := if state.terminal_status = some "ESCALATE" then hitl_node input state else state
    return output_node state

/-! ## Concrete states and payloads used by witnesses and counterexamples -/

/-- A state that already carries a terminal status when it reaches the router. -/
def c9state : RiskWorkflowState := { terminal_status := some "READY" }

/-- Router input: `suppress_flag` at score 45 (tier HIGH). -/
def c2state : RiskWorkflowState :=
  { moderation_passed := some true, intent := some "suppress_flag",
    risk_score := some 45, risk_tier := some "HIGH" }

/-- An escalated state entering the HITL gate. -/
def c8state : RiskWorkflowState :=
  { terminal_status := some "ESCALATE", masked_customer_id := some "****14" }

/-- A payload whose `high_risk_country` is negative: the computed score is
negative, so the tier lookup `next(...)` raises `StopIteration`. -/
def c1_badPayload : Payload :=
  { intent := some "rescore", customer_id := some "C009",
    customer_features := some ⟨some 5, some 50, some (-10)⟩ }

/-- A well-formed payload (end-to-end scenario 2 of the spec). -/
def c1_goodPayload : Payload :=
  { intent := some "rescore", customer_id := some "C002",
    customer_features := some ⟨some 70, some 4000, some 1⟩ }

/-- Iterated calls to the tool-call guard. -/
def iterToolCheck : ℕ → RiskWorkflowState → Except RiskWorkflowState RiskWorkflowState
  | 0, s => Except.ok s
  | n + 1, s =>
      match check_tool_call_limit s true with
      | Except.ok s' => iterToolCheck n s'
      | Except.error e => Except.error e

/-- Iterated calls to the model-call guard. -/
def iterModelCheck : ℕ → RiskWorkflowState → Except RiskWorkflowState RiskWorkflowState
  | 0, s => Except.ok s
  | n + 1, s =>
      match check_model_call_limit s true with
      | Except.ok s' => iterModelCheck n s'
      | Except.error e => Except.error e

/-! ## Proof-support definitions for the PII-scrub theorems

A pattern is packaged as a matcher `M` (exactly the executable one used by
`scrub_free_text`) together with a span-local existence predicate `Ok` and a
character set: `Ok pw span nextW` says that `span` is a complete match given
the word-ness `pw` of the preceding character and `nextW` of the following
one.  All reasoning about `re.sub`/`re.search` goes through these. -/

/-- The word-ness of the character preceding the position right after `p`,
when the scan started with previous-character word-ness `pw`. -/
def prevAfter (pw : Bool) (p : List Char) : Bool :=
  match p with
  | [] => pw
  | c :: t => wordChar (t.getLastD c)

/-- Total length of an alternation-free shape. -/
def atomLen : Atom → ℕ
  | Atom.digits n => n
  | Atom.lit _ => 1
  | Atom.sep => 1

def shapeLen (sh : List Atom) : ℕ := (sh.map atomLen).sum

/-- Characters a digit-built shape (ssn / phone / account) can consume. -/
def digitSepChar (c : Char) : Bool :=
  c.isDigit || sepChar c || c = '+' || c = '(' || c = ')'

/-- Characters an email match can consume. -/
def emailChar (c : Char) : Bool :=
  localChar c || c = '@' || domainChar c || c = '.' || tldChar c

/-- Whether the first atom of a shape can start on character `c`. -/
def firstAtomOk (sh : List Atom) (c : Char) : Bool :=
  match sh with
  | [] => true
  | Atom.digits _ :: _ => c.isDigit
  | Atom.lit l :: _ => c = l
  | Atom.sep :: _ => sepChar c

/-- A pattern: its matcher, span predicate and character set. -/
structure PatSpec where
  M : Bool → List Char → Option ℕ
  Ok : Bool → List Char → Bool → Prop
  charset : Char → Bool

/-- Span predicate for a shape-list pattern: some shape consumes exactly the
span, and both `\b` assertions hold. -/
def shapeOk (shapes : List (List Atom)) (pw : Bool) (span : List Char) (w : Bool) : Prop :=
  ∃ sh ∈ shapes, consume sh span = some (span, []) ∧
    ¬(pw = wordOpt span.head?) ∧ ¬(wordOpt span.getLast? = w)

/-- Span predicate for the email pattern: the span splits as
`local ++ '@' ++ domain ++ '.' ++ tld` with the two `\b` assertions. -/
def emailOk (pw : Bool) (span : List Char) (w : Bool) : Prop :=
  ∃ a b c, span = a ++ '@' :: (b ++ '.' :: c) ∧
    a ≠ [] ∧ (∀ x ∈ a, localChar x = true) ∧
    b ≠ [] ∧ (∀ x ∈ b, domainChar x = true) ∧
    2 ≤ c.length ∧ (∀ x ∈ c, tldChar x = true) ∧
    ¬(pw = wordOpt span.head?) ∧ ¬(wordOpt span.getLast? = w)

def specSSN : PatSpec := ⟨patM ssnShapes, shapeOk ssnShapes, digitSepChar⟩
def specPHONE : PatSpec := ⟨patM phoneShapes, shapeOk phoneShapes, digitSepChar⟩
def specACCT : PatSpec := ⟨patM acctShapes, shapeOk acctShapes, digitSepChar⟩
def specEMAIL : PatSpec := ⟨emailM, emailOk, emailChar⟩

/-- The laws every pattern satisfies; all of `re.sub`/`re.search` reasoning is
generic in these. -/
structure PatLaws (P : PatSpec) : Prop where
  sound : ∀ pw s n, P.M pw s = some n →
    2 ≤ n ∧ n ≤ s.length ∧ P.Ok pw (s.take n) (wordOpt (s.drop n).head?)
  complete : ∀ pw span rest, P.Ok pw span (wordOpt rest.head?) →
    (P.M pw (span ++ rest)).isSome
  ok_ne : ∀ pw span w, P.Ok pw span w → span ≠ []
  ok_chars : ∀ pw span w, P.Ok pw span w → ∀ c ∈ span, P.charset c = true
  ok_first : ∀ pw span w, P.Ok pw span w → ¬(pw = wordOpt span.head?)
  ok_last : ∀ pw span w, P.Ok pw span w → ¬(wordOpt span.getLast? = w)
  charset_lb : P.charset '[' = false

/-- One pass of `scrub_free_text`: substitute every occurrence iff the
pattern occurs at all (the `re.search` guard before `re.sub`). -/
def piiPass (M : Bool → List Char → Option ℕ) (tok : List Char)
    (x : List Char) : List Char :=
  if searchF M false x then subAll M tok false x else x

end RiskMonitoring

namespace RiskMonitoring

/-! # Theorems -/

/-! ## C10 : empty identifier masks to the literal `"UNKNOWN"` -/

/-- C10: for the empty-string identifier, `maskIdentifier` returns the literal
string `"UNKNOWN"`, which contains no mask character `'*'` and so is unrelated
to the ≥4-asterisk masking scheme used for non-empty inputs. -/
theorem c10_mask_empty_is_unknown :
    mask_customer_id "" = "UNKNOWN" ∧ '*' ∉ (mask_customer_id "").data := by
  constructor
  · rfl
  · decide

/-! ## C5 : `maskIdentifier` claimed to never return its input unchanged -/

/-- C5 (code bug): the documented example works (`"C014" ↦ "****14"`), but the
function has fixed points: the already-masked-looking identifier `"****14"` is
returned unchanged, contradicting the function's own docstring ("the masked
form is never identical to the original"). -/
theorem c5_mask_fixed_point :
    mask_customer_id "C014" = "****14" ∧ mask_customer_id "****14" = "****14" := by
  exact ⟨rfl, rfl⟩

/-! ## C9 : router pass-through when a terminal status is already set -/

/-- C9 (counterexample): with a terminal status already set, the router does
*not* pass the state through entirely unchanged — it still appends `"router"`
to the node-path audit trail. -/
theorem c9_counterexample : router_node c9state ≠ c9state := by
  intro h
  have h2 := congrArg RiskWorkflowState.node_path h
  simp [router_node, c9state] at h2

/-- C9 (amended): if the terminal status is already set, the router leaves
every field unchanged *except* that it appends `"router"` to `node_path`. -/
theorem c9_router_passthrough (s : RiskWorkflowState) (h : s.terminal_status ≠ none) :
    router_node s = { s with node_path := s.node_path ++ ["router"] } := by
  simp [router_node, h]

/-- C9 witness: the amended theorem evaluated at a concrete early-exited state. -/
theorem c9_router_passthrough_witness :
    router_node c9state = { c9state with node_path := ["router"] } := by
  have h := c9_router_passthrough c9state (by simp [c9state])
  simpa [c9state] using h

/-! ## C2 : suppress_flag ∧ score ≥ 40 takes priority in the router -/

/-- C2: a state reaching the router with no terminal status, moderation passed
and no missing fields, whose intent is `suppress_flag` and whose score is
≥ 40, is routed ESCALATE / `"suppress_high_risk_review"` — before any
tier-based rule can fire. -/
theorem c2_suppress_priority (s : RiskWorkflowState) (q : ℚ)
    (hterm : s.terminal_status = none) (hmod : s.moderation_passed = some true)
    (hmiss : s.missing_fields = []) (hint : s.intent = some "suppress_flag")
    (hscore : s.risk_score = some q) (hq : 40 ≤ q) :
    (router_node s).terminal_status = some "ESCALATE" ∧
    (router_node s).route_taken = some "suppress_high_risk_review" := by
  simp [router_node, hterm, hmod, hmiss, hint, hscore, hq]

/-- C2 witness: at score 45 (tier HIGH) the route is
`"suppress_high_risk_review"`, not `"high_risk_escalate"`. -/
theorem c2_suppress_priority_witness :
    (router_node c2state).terminal_status = some "ESCALATE" ∧
    (router_node c2state).route_taken = some "suppress_high_risk_review" ∧
    (router_node c2state).route_taken ≠ some "high_risk_escalate" := by
  have h := c2_suppress_priority c2state 45 rfl rfl rfl rfl rfl (by norm_num)
  exact ⟨h.1, h.2, by rw [h.2]; decide⟩

/-! ## C3 : tier thresholds -/

/-- C3: for every score in `[0, 100]` the tier is the first threshold `≤`
score in the descending list `TIERS`; characterized by the spec's bands, with
the boundary examples 55 ↦ CRITICAL, 54.99 ↦ HIGH, 39.99 ↦ MEDIUM,
19.99 ↦ LOW. -/
theorem c3_tier_thresholds :
    (∀ s : ℚ, 0 ≤ s → s ≤ 100 →
      tierOf s = some (if 55 ≤ s then "CRITICAL" else if 40 ≤ s then "HIGH"
                       else if 20 ≤ s then "MEDIUM" else "LOW")) ∧
    tierOf 55 = some "CRITICAL" ∧ tierOf (5499/100) = some "HIGH" ∧
    tierOf (3999/100) = some "MEDIUM" ∧ tierOf (1999/100) = some "LOW" := by
  refine ⟨fun s h0 _ => ?_, by norm_num [tierOf, TIERS], by norm_num [tierOf, TIERS],
    by norm_num [tierOf, TIERS], by norm_num [tierOf, TIERS]⟩
  by_cases h55 : (55 : ℚ) ≤ s <;> by_cases h40 : (40 : ℚ) ≤ s <;>
    by_cases h20 : (20 : ℚ) ≤ s <;>
    simp [tierOf, TIERS, h55, h40, h20, h0]

/-- C3 witness: the band characterization applied at score 45. -/
theorem c3_tier_thresholds_witness : tierOf 45 = some "HIGH" := by
  have h := c3_tier_thresholds.1 45 (by norm_num) (by norm_num)
  norm_num at h
  exact h

/-! ## C6 : the call-limit guards -/

/-- Helper: as long as the ceiling is not passed, iterated guard calls succeed
and each call increments the counter by exactly one. -/
theorem iterToolCheck_ok (n : ℕ) (s : RiskWorkflowState)
    (h : s.tool_call_count + n ≤ s.MAX_TOOL_CALLS) :
    iterToolCheck n s = Except.ok { s with tool_call_count := s.tool_call_count + n } := by
  induction n generalizing s with
  | zero => rfl
  | succ k ih =>
      have hlt : ¬ s.MAX_TOOL_CALLS < s.tool_call_count + 1 := by omega
      have ih' := ih { s with tool_call_count := s.tool_call_count + 1 } (by simp; omega)
      simp only [iterToolCheck, check_tool_call_limit, if_pos rfl, if_neg hlt, ite_true] at *
      rw [ih']
      have : s.tool_call_count + 1 + k = s.tool_call_count + (k + 1) := by omega
      simp [this]

/-- Helper: the first call past the ceiling fails, appending the overage
message and setting ESCALATE before raising. -/
theorem iterToolCheck_overflow (n : ℕ) (s : RiskWorkflowState)
    (h : s.tool_call_count + n = s.MAX_TOOL_CALLS + 1) (hn : 1 ≤ n) :
    iterToolCheck n s = Except.error
      { s with tool_call_count := s.MAX_TOOL_CALLS + 1,
               errors := s.errors ++ [toolLimitMsg s.MAX_TOOL_CALLS (s.MAX_TOOL_CALLS + 1)],
               terminal_status := some "ESCALATE",
               route_taken := some "tool_call_limit_exceeded" } := by
  induction n generalizing s with
  | zero => omega
  | succ k ih =>
      by_cases hk : k = 0
      · subst hk
        have hcnt : s.tool_call_count = s.MAX_TOOL_CALLS := by omega
        have hlt : s.MAX_TOOL_CALLS < s.tool_call_count + 1 := by omega
        simp [iterToolCheck, check_tool_call_limit, hlt, hcnt]
      · have hlt : ¬ s.MAX_TOOL_CALLS < s.tool_call_count + 1 := by omega
        have ih' := ih { s with tool_call_count := s.tool_call_count + 1 }
          (by simp; omega) (by omega)
        simp only [iterToolCheck, check_tool_call_limit, if_pos rfl, if_neg hlt,
          ite_true] at *
        rw [ih']

/-- Helper: model-call analogue of `iterToolCheck_ok`. -/
theorem iterModelCheck_ok (n : ℕ) (s : RiskWorkflowState)
    (h : s.model_call_count + n ≤ s.MAX_MODEL_CALLS) :
    iterModelCheck n s = Except.ok { s with model_call_count := s.model_call_count + n } := by
  induction n generalizing s with
  | zero => rfl
  | succ k ih =>
      have hlt : ¬ s.MAX_MODEL_CALLS < s.model_call_count + 1 := by omega
      have ih' := ih { s with model_call_count := s.model_call_count + 1 } (by simp; omega)
      simp only [iterModelCheck, check_model_call_limit, if_pos rfl, if_neg hlt,
        ite_true] at *
      rw [ih']
      have : s.model_call_count + 1 + k = s.model_call_count + (k + 1) := by omega
      simp [this]

/-- Helper: model-call analogue of `iterToolCheck_overflow`. -/
theorem iterModelCheck_overflow (n : ℕ) (s : RiskWorkflowState)
    (h : s.model_call_count + n = s.MAX_MODEL_CALLS + 1) (hn : 1 ≤ n) :
    iterModelCheck n s = Except.error
      { s with model_call_count := s.MAX_MODEL_CALLS + 1,
               errors := s.errors ++ [modelLimitMsg s.MAX_MODEL_CALLS (s.MAX_MODEL_CALLS + 1)],
               terminal_status := some "ESCALATE",
               route_taken := some "model_call_limit_exceeded" } := by
  induction n generalizing s with
  | zero => omega
  | succ k ih =>
      by_cases hk : k = 0
      · subst hk
        have hcnt : s.model_call_count = s.MAX_MODEL_CALLS := by omega
        have hlt : s.MAX_MODEL_CALLS < s.model_call_count + 1 := by omega
        simp [iterModelCheck, check_model_call_limit, hlt, hcnt]
      · have hlt : ¬ s.MAX_MODEL_CALLS < s.model_call_count + 1 := by omega
        have ih' := ih { s with model_call_count := s.model_call_count + 1 }
          (by simp; omega) (by omega)
        simp only [iterModelCheck, check_model_call_limit, if_pos rfl, if_neg hlt,
          ite_true] at *
        rw [ih']

/-- C6: for a state whose counters start at 0 with ceilings `C`/`D`: the first
`C` (resp. `D`) guard calls succeed, each incrementing the counter by one, and
call `C+1` (resp. `D+1`) fails with the `LimitExceeded` condition, appending
the specific overage message to `errors` and setting terminal status ESCALATE
before raising — for both the tool-call and the model-call guard. -/
theorem c6_call_limit_guard (s : RiskWorkflowState) (C D : ℕ)
    (htc : s.tool_call_count = 0) (hmc : s.model_call_count = 0)
    (hMT : s.MAX_TOOL_CALLS = C) (hMM : s.MAX_MODEL_CALLS = D) :
    (∀ k, k ≤ C → iterToolCheck k s = Except.ok { s with tool_call_count := k }) ∧
    iterToolCheck (C + 1) s = Except.error
      { s with tool_call_count := C + 1,
               errors := s.errors ++ [toolLimitMsg C (C + 1)],
               terminal_status := some "ESCALATE",
               route_taken := some "tool_call_limit_exceeded" } ∧
    (∀ k, k ≤ D → iterModelCheck k s = Except.ok { s with model_call_count := k }) ∧
    iterModelCheck (D + 1) s = Except.error
      { s with model_call_count := D + 1,
               errors := s.errors ++ [modelLimitMsg D (D + 1)],
               terminal_status := some "ESCALATE",
               route_taken := some "model_call_limit_exceeded" } := by
  refine ⟨fun k hk => ?_, ?_, fun k hk => ?_, ?_⟩
  · have := iterToolCheck_ok k s (by omega)
    rw [this, htc]
    simp
  · have := iterToolCheck_overflow (C + 1) s (by omega) (by omega)
    rw [this, hMT]
  · have := iterModelCheck_ok k s (by omega)
    rw [this, hmc]
    simp
  · have := iterModelCheck_overflow (D + 1) s (by omega) (by omega)
    rw [this, hMM]

/-- C6 witness: the guard behaviour at the default ceilings (10 tool calls,
5 model calls) from a fresh state. -/
theorem c6_call_limit_guard_witness :
    iterToolCheck 10 ({} : RiskWorkflowState) =
      Except.ok { ({} : RiskWorkflowState) with tool_call_count := 10 } ∧
    iterToolCheck 11 ({} : RiskWorkflowState) = Except.error
      { ({} : RiskWorkflowState) with
        tool_call_count := 11,
        errors := [toolLimitMsg 10 11],
        terminal_status := some "ESCALATE",
        route_taken := some "tool_call_limit_exceeded" } := by
  have h := c6_call_limit_guard ({} : RiskWorkflowState) 10 5 rfl rfl rfl rfl
  exact ⟨h.1 10 (by norm_num), h.2.1⟩

/-! ## C8 : the HITL gate in automatic mode -/

/-- C8 (counterexample): an automatic approval *can* be indistinguishable in
the emitted audit record from a genuine human approval — namely when the human
reviewer's typed notes are exactly the fixed annotation text. -/
theorem c8_counterexample :
    _build_audit_log (hitl_node ReviewerInput.auto c8state) =
      _build_audit_log (hitl_node (ReviewerInput.approve AUTO_NOTES) c8state) := by
  rfl

/-- C8 (amended): in automatic mode the HITL gate behaves as the approved
branch (draft response, action `"approve"`) and records the fixed annotation
`AUTO_NOTES` in `hitl_reviewer_notes`, which is queryable from the audit
record; it is distinguishable from every human approval whose stripped notes
differ from that annotation (but not from one that types the annotation
verbatim). -/
theorem c8_auto_mode_annotation (s : RiskWorkflowState)
    (h : s.terminal_status = some "ESCALATE") :
    hitl_node ReviewerInput.auto s =
      { s with node_path := s.node_path ++ ["hitl"], hitl_triggered := true,
               hitl_reviewer_action := some "approve",
               hitl_reviewer_notes := some AUTO_NOTES,
               final_response := some _generate_draft_response } ∧
    (_build_audit_log (hitl_node ReviewerInput.auto s)).hitl_reviewer_notes
      = some AUTO_NOTES ∧
    (∀ notes, pyStrip notes ≠ AUTO_NOTES →
      _build_audit_log (hitl_node ReviewerInput.auto s) ≠
        _build_audit_log (hitl_node (ReviewerInput.approve notes) s)) := by
  refine ⟨by simp [hitl_node, h], by simp [hitl_node, h, _build_audit_log], ?_⟩
  intro notes hne heq
  have hfield := congrArg AuditLog.hitl_reviewer_notes heq
  by_cases hn : pyStrip notes = "" <;>
    simp [_build_audit_log, hitl_node, h, hn] at hfield
  exact hne hfield.symm

/-- C8 witness: the amended theorem at a concrete escalated state and a
concrete distinct human note. -/
theorem c8_auto_mode_annotation_witness :
    (_build_audit_log (hitl_node ReviewerInput.auto c8state)).hitl_reviewer_notes
      = some AUTO_NOTES ∧
    _build_audit_log (hitl_node ReviewerInput.auto c8state) ≠
      _build_audit_log (hitl_node (ReviewerInput.approve "reviewed and ok") c8state) := by
  have h := c8_auto_mode_annotation c8state rfl
  exact ⟨h.2.1, h.2.2 "reviewed and ok" (by decide)⟩

/-! ## C1 : pipeline totality -/

theorem _minmax_nonneg (v a b : ℚ) : 0 ≤ _minmax v a b := by
  unfold _minmax
  split
  · exact le_refl 0
  · exact le_max_left 0 _

theorem round2_nonneg (q : ℚ) (h : 0 ≤ q) : 0 ≤ round2 q := by
  unfold round2
  have h2 : (0 : ℤ) ≤ round (q * 100) := by
    rw [round_eq]
    rw [Int.le_floor]
    push_cast
    linarith
  positivity

theorem tierOf_isSome (q : ℚ) (h : 0 ≤ q) : (tierOf q).isSome := by
  unfold tierOf TIERS
  by_cases h55 : (55 : ℚ) ≤ q <;> by_cases h40 : (40 : ℚ) ≤ q <;>
    by_cases h20 : (20 : ℚ) ≤ q <;> simp [List.find?, h55, h40, h20, h]

theorem compute_score_isSome (f : Features) (h : 0 ≤ f.high_risk_country.getD 0) :
    (compute_score f).isSome := by
  obtain ⟨tc, aa, hc⟩ := f
  cases tc with
  | none => simp [compute_score]
  | some vt =>
    cases aa with
    | none => simp [compute_score]
    | some va =>
      cases hc with
      | none => simp [compute_score]
      | some vh =>
        simp only [Option.getD_some] at h
        have hs : 0 ≤ round2 (((40 / 100 : ℚ) * _minmax vt TXN_COUNT_MIN TXN_COUNT_MAX +
            (40 / 100 : ℚ) * _minmax va AVG_AMT_MIN AVG_AMT_MAX +
            (20 / 100 : ℚ) * vh) * 100) := by
          apply round2_nonneg
          have n1 := _minmax_nonneg vt TXN_COUNT_MIN TXN_COUNT_MAX
          have n2 := _minmax_nonneg va AVG_AMT_MIN AVG_AMT_MAX
          nlinarith
        obtain ⟨t, htt⟩ := Option.isSome_iff_exists.mp (tierOf_isSome _ hs)
        simp [compute_score, htt]

theorem data_mk (l : List Char) : (String.mk l).data = l := rfl

theorem str_append_ne_empty (a b : String) (h : a.data ≠ []) : a ++ b ≠ "" := by
  intro hc
  apply h
  have hd := congrArg String.data hc
  rw [String.data_append] at hd
  exact (List.append_eq_nil.mp hd).1

theorem str_ne_empty_of_head (s : String) (c : Char) (h : s.data.head? = some c) :
    s ≠ "" := by
  intro hcon
  rw [hcon] at h
  simp at h

theorem head_append_left (a b : String) (c : Char) (h : a.data.head? = some c) :
    (a ++ b).data.head? = some c := by
  rw [String.data_append]
  cases hd : a.data with
  | nil => rw [hd] at h; simp at h
  | cons x xs => rw [hd] at h; simpa using h

theorem pyStrip_ne_empty (s : String) (c : Char) (h : s.data.head? = some c)
    (hc : c.isWhitespace = false) : pyStrip s ≠ "" := by
  intro hcon
  have hdata := congrArg String.data hcon
  simp only [pyStrip, data_mk] at hdata
  cases hd : s.data with
  | nil => rw [hd] at h; simp at h
  | cons x xs =>
      rw [hd] at h hdata
      have hxc : x = c := by simpa using h
      have hxw : x.isWhitespace = false := by rw [hxc]; exact hc
      rw [List.dropWhile_cons, if_neg (by simp [hxw])] at hdata
      have h0 : (x :: xs).reverse.dropWhile Char.isWhitespace = [] := by
        have h1 := congrArg List.reverse hdata
        simpa using h1
      have hall := List.dropWhile_eq_nil_iff.mp h0
      have hxws := hall x (by simp)
      rw [hxw] at hxws
      exact Bool.noConfusion hxws

theorem build_final_ne_empty (s : RiskWorkflowState) :
    _build_final_response_if_missing s ≠ "" := by
  unfold _build_final_response_if_missing
  split
  · assumption
  · dsimp only
    split
    · split <;>
        (apply str_ne_empty_of_head
         repeat' apply head_append_left
         rfl)
    · split
      · apply pyStrip_ne_empty
        · repeat' apply head_append_left
          rfl
        · decide
      · apply str_ne_empty_of_head
        repeat' apply head_append_left
        rfl

theorem output_node_spec (s : RiskWorkflowState) :
    (output_node s).final_response.getD "" ≠ "" ∧
    (output_node s).terminal_status = s.terminal_status ∧
    (output_node s).node_path.getLast? = some "output" := by
  refine ⟨?_, rfl, ?_⟩
  · simpa using build_final_ne_empty { s with node_path := s.node_path ++ ["output"] }
  · show (s.node_path ++ ["output"]).getLast? = some "output"
    rw [List.getLast?_concat]

theorem router_node_sets_terminal (s : RiskWorkflowState) :
    (router_node s).terminal_status ≠ none := by
  unfold router_node
  dsimp only
  by_cases h : s.terminal_status = none <;> split_ifs <;> simp_all

theorem hitl_node_terminal (i : ReviewerInput) (s : RiskWorkflowState) :
    (hitl_node i s).terminal_status = s.terminal_status := by
  unfold hitl_node
  dsimp only
  split_ifs
  · rfl
  · cases i <;> rfl

theorem intake_node_frame (s : RiskWorkflowState) :
    (intake_node s).tool_call_count = s.tool_call_count ∧
    (intake_node s).MAX_TOOL_CALLS = s.MAX_TOOL_CALLS ∧
    (intake_node s).raw_input = s.raw_input := by
  unfold intake_node
  dsimp only
  split_ifs <;> simp

theorem run_pii_middleware_frame (s : RiskWorkflowState) :
    (run_pii_middleware s).tool_call_count = s.tool_call_count ∧
    (run_pii_middleware s).MAX_TOOL_CALLS = s.MAX_TOOL_CALLS ∧
    (run_pii_middleware s).raw_input = s.raw_input := by
  unfold run_pii_middleware
  dsimp only
  split_ifs <;> simp

theorem run_moderation_middleware_frame (m : String → Bool × String) (s : RiskWorkflowState) :
    (run_moderation_middleware m s).tool_call_count = s.tool_call_count ∧
    (run_moderation_middleware m s).MAX_TOOL_CALLS = s.MAX_TOOL_CALLS ∧
    (run_moderation_middleware m s).raw_input = s.raw_input := by
  unfold run_moderation_middleware
  dsimp only
  split_ifs <;> simp

theorem scoring_node_ok (s : RiskWorkflowState)
    (h1 : s.tool_call_count = 0) (h2 : s.MAX_TOOL_CALLS = 10)
    (h3 : 0 ≤ (((s.raw_input.getD emptyPayload).customer_features.getD
        ⟨none, none, none⟩).high_risk_country.getD 0)) :
    ∃ s', scoring_node s = Except.ok s' ∧ s'.terminal_status = s.terminal_status := by
  unfold scoring_node
  dsimp only
  have hchk : ¬ s.MAX_TOOL_CALLS < s.tool_call_count + 1 := by omega
  simp only [check_tool_call_limit, if_pos rfl, if_neg hchk, ite_true]
  have hb : ∀ (x : RiskWorkflowState)
      (f : RiskWorkflowState → Except RiskWorkflowState RiskWorkflowState),
      (Except.ok x >>= f) = f x := fun _ _ => rfl
  rw [hb]
  cases hf : (s.raw_input.getD emptyPayload).customer_features with
  | none => exact ⟨_, rfl, rfl⟩
  | some f =>
      rw [hf] at h3
      simp only [Option.getD_some] at h3
      obtain ⟨r, hr⟩ := Option.isSome_iff_exists.mp (compute_score_isSome f h3)
      dsimp only
      rw [hr]
      by_cases hi : s.intent = some "explain_score"
      · simp only [hi, ite_true, if_pos rfl]
        exact ⟨_, rfl, rfl⟩
      · simp only [if_neg hi]
        exact ⟨_, rfl, rfl⟩

/-- C1 (counterexample): a payload whose `high_risk_country` is negative
drives the computed score negative; the tier lookup `next(...)` then raises
`StopIteration`, nothing in `_build_sequential_runner` catches it, and the
output stage never runs — so "a pipeline run terminates having produced a
non-empty final response" fails for this payload. -/
theorem _minmax_le_one (v a b : ℚ) : _minmax v a b ≤ 1 := by
  unfold _minmax
  split
  · norm_num
  · exact max_le (by norm_num) (min_le_left 1 _)

theorem round2_neg (q : ℚ) (h : q ≤ -1) : round2 q < 0 := by
  unfold round2
  have hfl : round (q * 100) < 0 := by
    rw [round_eq, Int.floor_lt]
    push_cast
    linarith
  have hc : ((round (q * 100) : ℤ) : ℚ) < 0 := by exact_mod_cast hfl
  exact div_neg_of_neg_of_pos hc (by norm_num)

theorem tierOf_none_of_neg (q : ℚ) (h : q < 0) : tierOf q = none := by
  have h55 : ¬ (55 : ℚ) ≤ q := by linarith
  have h40 : ¬ (40 : ℚ) ≤ q := by linarith
  have h20 : ¬ (20 : ℚ) ≤ q := by linarith
  have h0 : ¬ (0 : ℚ) ≤ q := by linarith
  simp [tierOf, TIERS, List.find?, h55, h40, h20, h0]

theorem compute_score_neg_hrc :
    compute_score ⟨some 5, some 50, some (-10)⟩ = none := by
  have ht : tierOf (round2 (((2 / 5 : ℚ) * _minmax 5 TXN_COUNT_MIN TXN_COUNT_MAX +
      2 / 5 * _minmax 50 AVG_AMT_MIN AVG_AMT_MAX + -2) * 100)) = none := by
    apply tierOf_none_of_neg
    apply round2_neg
    nlinarith [_minmax_nonneg 5 TXN_COUNT_MIN TXN_COUNT_MAX,
      _minmax_nonneg 50 AVG_AMT_MIN AVG_AMT_MAX,
      _minmax_le_one 5 TXN_COUNT_MIN TXN_COUNT_MAX,
      _minmax_le_one 50 AVG_AMT_MIN AVG_AMT_MAX]
  simp only [compute_score, Option.isNone_some, Option.getD_some]
  norm_num
  rw [ht]

theorem c1_counterexample :
    (runPipeline _heuristic_moderate ReviewerInput.auto
        (initState "RUN1" "TS" c1_badPayload)).isOk = false := by
  have h1 : intake_node (initState "RUN1" "TS" c1_badPayload) =
      { run_id := "RUN1", timestamp := "TS", raw_input := some c1_badPayload,
        intent := some "rescore", customer_id := some "C009",
        free_text_notes := some "", node_path := ["intake"] } := by
    decide
  have h2 : run_pii_middleware
      { run_id := "RUN1", timestamp := "TS", raw_input := some c1_badPayload,
        intent := some "rescore", customer_id := some "C009",
        free_text_notes := some "", node_path := ["intake"] } =
      { run_id := "RUN1", timestamp := "TS", raw_input := some c1_badPayload,
        intent := some "rescore", customer_id := some "C009",
        free_text_notes := some "", masked_customer_id := some "****09",
        pii_fields_redacted := ["customer_id"],
        node_path := ["intake", "pii_middleware"] } := by
    decide
  have h3 : run_moderation_middleware _heuristic_moderate
      { run_id := "RUN1", timestamp := "TS", raw_input := some c1_badPayload,
        intent := some "rescore", customer_id := some "C009",
        free_text_notes := some "", masked_customer_id := some "****09",
        pii_fields_redacted := ["customer_id"],
        node_path := ["intake", "pii_middleware"] } =
      { run_id := "RUN1", timestamp := "TS", raw_input := some c1_badPayload,
        intent := some "rescore", customer_id := some "C009",
        free_text_notes := some "", masked_customer_id := some "****09",
        pii_fields_redacted := ["customer_id"], moderation_passed := some true,
        moderation_reason := some "No free-text notes to moderate.",
        node_path := ["intake", "pii_middleware", "moderation_middleware"] } := by
    decide
  have h4 : scoring_node
      { run_id := "RUN1", timestamp := "TS", raw_input := some c1_badPayload,
        intent := some "rescore", customer_id := some "C009",
        free_text_notes := some "", masked_customer_id := some "****09",
        pii_fields_redacted := ["customer_id"], moderation_passed := some true,
        moderation_reason := some "No free-text notes to moderate.",
        node_path := ["intake", "pii_middleware", "moderation_middleware"] } =
      Except.error
      { run_id := "RUN1", timestamp := "TS", raw_input := some c1_badPayload,
        intent := some "rescore", customer_id := some "C009",
        free_text_notes := some "", masked_customer_id := some "****09",
        pii_fields_redacted := ["customer_id"], moderation_passed := some true,
        moderation_reason := some "No free-text notes to moderate.",
        node_path := ["intake", "pii_middleware", "moderation_middleware", "scoring"],
        tool_call_count := 1 } := by
    unfold scoring_node
    dsimp only
    simp only [check_tool_call_limit]
    norm_num [c1_badPayload, emptyPayload]
    have hb : ∀ (x : RiskWorkflowState)
        (f : RiskWorkflowState → Except RiskWorkflowState RiskWorkflowState),
        (Except.ok x >>= f) = f x := fun _ _ => rfl
    rw [hb]
    simp only [Option.getD_some]
    rw [compute_score_neg_hrc]
  unfold runPipeline
  rw [h1]
  rw [if_neg (by decide)]
  dsimp only
  rw [h2, h3, h4]
  rfl

/-- C1 (amended): for every payload whose `high_risk_country` feature (when
present) is non-negative, the pipeline terminates normally: no exception
(including the `LimitExceeded` guard condition, whose counter provably stays
at 1 ≤ 10) escapes, the output stage always runs last, and the final state
carries a non-empty response and a terminal status. -/
theorem c1_pipeline_always_outputs (moderate : String → Bool × String)
    (input : ReviewerInput) (rid ts : String) (p : Payload)
    (h : 0 ≤ ((p.customer_features.getD ⟨none, none, none⟩).high_risk_country.getD 0)) :
    ∃ s, runPipeline moderate input (initState rid ts p) = Except.ok s ∧
      s.final_response.getD "" ≠ "" ∧ s.terminal_status ≠ none ∧
      s.node_path.getLast? = some "output" := by
  by_cases hni : (intake_node (initState rid ts p)).terminal_status = some "NEED_INFO"
  · refine ⟨output_node (intake_node (initState rid ts p)), ?_, (output_node_spec _).1,
      ?_, (output_node_spec _).2.2⟩
    · unfold runPipeline
      rw [if_pos hni]
      rfl
    · rw [(output_node_spec _).2.1, hni]
      simp
  · have hf1 := intake_node_frame (initState rid ts p)
    have hf2 := run_pii_middleware_frame (intake_node (initState rid ts p))
    have hf3 := run_moderation_middleware_frame moderate
      (run_pii_middleware (intake_node (initState rid ts p)))
    set s3 := run_moderation_middleware moderate
      (run_pii_middleware (intake_node (initState rid ts p))) with hs3
    have hc1 : s3.tool_call_count = 0 := by
      rw [hf3.1, hf2.1, hf1.1]; rfl
    have hc2 : s3.MAX_TOOL_CALLS = 10 := by
      rw [hf3.2.1, hf2.2.1, hf1.2.1]; rfl
    have hc3 : s3.raw_input = some p := by
      rw [hf3.2.2, hf2.2.2, hf1.2.2]; rfl
    obtain ⟨s4, hs4, ht4⟩ := scoring_node_ok s3 hc1 hc2 (by rw [hc3]; simpa using h)
    have hb : ∀ (x : RiskWorkflowState)
        (f : RiskWorkflowState → Except RiskWorkflowState RiskWorkflowState),
        (Except.ok x >>= f) = f x := fun _ _ => rfl
    have hrun : runPipeline moderate input (initState rid ts p) =
        Except.ok (output_node
          (if (router_node s4).terminal_status = some "ESCALATE" then
            hitl_node input (router_node s4) else router_node s4)) := by
      unfold runPipeline
      rw [if_neg hni]
      dsimp only
      rw [← hs3, hs4, hb]
      rfl
    set s5 := router_node s4 with hs5
    set s6 := (if s5.terminal_status = some "ESCALATE" then hitl_node input s5 else s5) with hs6
    have ht6 : s6.terminal_status ≠ none := by
      have hr := router_node_sets_terminal s4
      rw [hs6]
      split
      · rw [hitl_node_terminal]
        exact hr
      · exact hr
    refine ⟨output_node s6, hrun, (output_node_spec _).1, ?_, (output_node_spec _).2.2⟩
    rw [(output_node_spec _).2.1]
    exact ht6

/-- C1 witness: the amended theorem at a concrete well-formed payload. -/
theorem c1_pipeline_always_outputs_witness :
    ∃ s, runPipeline _heuristic_moderate ReviewerInput.auto
        (initState "RUN2" "TS" c1_goodPayload) = Except.ok s ∧
      s.final_response.getD "" ≠ "" ∧ s.terminal_status ≠ none ∧
      s.node_path.getLast? = some "output" :=
  c1_pipeline_always_outputs _heuristic_moderate ReviewerInput.auto "RUN2" "TS"
    c1_goodPayload (by norm_num [c1_goodPayload])

/-! ## C4 / C7 groundwork : laws of the shape-list matchers -/

theorem consume_split : ∀ (sh : List Atom) (s sp r : List Char),
    consume sh s = some (sp, r) → s = sp ++ r := by
  intro sh
  induction sh with
  | nil =>
      intro s sp r h
      simp only [consume, Option.some.injEq, Prod.mk.injEq] at h
      rw [← h.1, ← h.2]
      rfl
  | cons a as ih =>
      intro s sp r h
      cases a with
      | digits n =>
          simp only [consume] at h
          split at h
          · obtain ⟨p, hp, heq⟩ := Option.map_eq_some'.mp h
            simp only [Prod.mk.injEq] at heq
            have hs := ih _ _ _ hp
            rw [← heq.1, ← heq.2, List.append_assoc, ← hs]
            exact (List.take_append_drop n s).symm
          · exact absurd h (by simp)
      | lit c =>
          cases s with
          | nil => exact absurd h (by simp [consume])
          | cons x s' =>
              simp only [consume] at h
              split at h
              · obtain ⟨p, hp, heq⟩ := Option.map_eq_some'.mp h
                simp only [Prod.mk.injEq] at heq
                have hs := ih _ _ _ hp
                rw [← heq.1, ← heq.2]
                simp [← hs]
              · exact absurd h (by simp)
      | sep =>
          cases s with
          | nil => exact absurd h (by simp [consume])
          | cons x s' =>
              simp only [consume] at h
              split at h
              · obtain ⟨p, hp, heq⟩ := Option.map_eq_some'.mp h
                simp only [Prod.mk.injEq] at heq
                have hs := ih _ _ _ hp
                rw [← heq.1, ← heq.2]
                simp [← hs]
              · exact absurd h (by simp)

theorem consume_exact : ∀ (sh : List Atom) (s sp r : List Char),
    consume sh s = some (sp, r) → consume sh sp = some (sp, []) := by
  intro sh
  induction sh with
  | nil =>
      intro s sp r h
      simp only [consume, Option.some.injEq, Prod.mk.injEq] at h
      rw [← h.1]
      rfl
  | cons a as ih =>
      intro s sp r h
      cases a with
      | digits n =>
          simp only [consume] at h
          split at h
          case isTrue hcond =>
            obtain ⟨p, hp, heq⟩ := Option.map_eq_some'.mp h
            simp only [Prod.mk.injEq] at heq
            have hsp := ih _ _ _ hp
            have hlen : (s.take n).length = n := hcond.1
            simp only [consume]
            rw [← heq.1]
            rw [List.take_append_of_le_length (by omega),
                List.drop_append_of_le_length (by omega)]
            have ht : (s.take n).take n = s.take n := by
              apply List.take_of_length_le
              omega
            have hd : (s.take n).drop n = [] := by
              apply List.drop_eq_nil_of_le
              omega
            rw [ht, hd]
            rw [if_pos ⟨hcond.1, hcond.2⟩]
            simp only [List.nil_append]
            rw [hsp]
            rfl
          case isFalse => exact absurd h (by simp)
      | lit c =>
          cases s with
          | nil => exact absurd h (by simp [consume])
          | cons x s' =>
              simp only [consume] at h
              split at h
              case isTrue hx =>
                obtain ⟨p, hp, heq⟩ := Option.map_eq_some'.mp h
                simp only [Prod.mk.injEq] at heq
                have hsp := ih _ _ _ hp
                rw [← heq.1]
                simp only [consume, if_pos hx]
                rw [hsp]
                rfl
              case isFalse => exact absurd h (by simp)
      | sep =>
          cases s with
          | nil => exact absurd h (by simp [consume])
          | cons x s' =>
              simp only [consume] at h
              split at h
              case isTrue hx =>
                obtain ⟨p, hp, heq⟩ := Option.map_eq_some'.mp h
                simp only [Prod.mk.injEq] at heq
                have hsp := ih _ _ _ hp
                rw [← heq.1]
                simp only [consume, if_pos hx]
                rw [hsp]
                rfl
              case isFalse => exact absurd h (by simp)

theorem consume_extend : ∀ (sh : List Atom) (sp r : List Char),
    consume sh sp = some (sp, []) → consume sh (sp ++ r) = some (sp, r) := by
  intro sh
  induction sh with
  | nil =>
      intro sp r h
      simp only [consume, Option.some.injEq, Prod.mk.injEq] at h
      rw [← h.1]
      rfl
  | cons a as ih =>
      intro sp r h
      cases a with
      | digits n =>
          simp only [consume] at h
          split at h
          case isTrue hcond =>
            obtain ⟨p, hp, heq⟩ := Option.map_eq_some'.mp h
            simp only [Prod.mk.injEq] at heq
            have hlen : (sp.take n).length = n := hcond.1
            have hn : n ≤ sp.length := by
              have h2 := hlen
              simp only [List.length_take] at h2
              omega
            have hsplit := consume_split _ _ _ _ hp
            have hp2 : p.2 = [] := heq.2
            have hdrop : sp.drop n = p.1 := by rw [hsplit, hp2, List.append_nil]
            simp only [consume]
            rw [List.take_append_of_le_length hn, List.drop_append_of_le_length hn]
            rw [if_pos ⟨hcond.1, hcond.2⟩]
            have hpeq : p = (p.1, []) := by rw [← hp2]
            have harg : consume as p.1 = some (p.1, []) := by
              rw [← hdrop, hp, hpeq, hdrop]
            rw [hdrop, ih p.1 r harg]
            simp only [Option.map_some']
            rw [heq.1]
          case isFalse => exact absurd h (by simp)
      | lit c =>
          cases sp with
          | nil => exact absurd h (by simp [consume])
          | cons x sp' =>
              simp only [consume] at h
              split at h
              case isTrue hx =>
                obtain ⟨p, hp, heq⟩ := Option.map_eq_some'.mp h
                simp only [Prod.mk.injEq] at heq
                have hx1 : x :: p.1 = x :: sp' := by rw [heq.1]
                have hp1 : p.1 = sp' := by injection hx1
                have hp2 : p.2 = [] := heq.2
                simp only [List.cons_append, consume, if_pos hx, List.append_eq]
                have hpeq : p = (sp', []) := by rw [← hp1, ← hp2]
                have harg : consume as sp' = some (sp', []) := by rw [hp, hpeq]
                rw [ih sp' r harg]
                simp
              case isFalse => exact absurd h (by simp)
      | sep =>
          cases sp with
          | nil => exact absurd h (by simp [consume])
          | cons x sp' =>
              simp only [consume] at h
              split at h
              case isTrue hx =>
                obtain ⟨p, hp, heq⟩ := Option.map_eq_some'.mp h
                simp only [Prod.mk.injEq] at heq
                have hx1 : x :: p.1 = x :: sp' := by rw [heq.1]
                have hp1 : p.1 = sp' := by injection hx1
                have hp2 : p.2 = [] := heq.2
                simp only [List.cons_append, consume, if_pos hx, List.append_eq]
                have hpeq : p = (sp', []) := by rw [← hp1, ← hp2]
                have harg : consume as sp' = some (sp', []) := by rw [hp, hpeq]
                rw [ih sp' r harg]
                simp
              case isFalse => exact absurd h (by simp)

theorem consume_len : ∀ (sh : List Atom) (s sp r : List Char),
    consume sh s = some (sp, r) → sp.length = shapeLen sh := by
  intro sh
  induction sh with
  | nil =>
      intro s sp r h
      simp only [consume, Option.some.injEq, Prod.mk.injEq] at h
      rw [← h.1]
      rfl
  | cons a as ih =>
      intro s sp r h
      cases a with
      | digits n =>
          simp only [consume] at h
          split at h
          case isTrue hcond =>
            obtain ⟨p, hp, heq⟩ := Option.map_eq_some'.mp h
            simp only [Prod.mk.injEq] at heq
            rw [← heq.1, List.length_append, hcond.1, ih _ _ _ hp]
            simp [shapeLen, atomLen]
          case isFalse => exact absurd h (by simp)
      | lit c =>
          cases s with
          | nil => exact absurd h (by simp [consume])
          | cons x s' =>
              simp only [consume] at h
              split at h
              case isTrue hx =>
                obtain ⟨p, hp, heq⟩ := Option.map_eq_some'.mp h
                simp only [Prod.mk.injEq] at heq
                rw [← heq.1]
                simp only [List.length_cons, ih _ _ _ hp]
                simp [shapeLen, atomLen]
                omega
              case isFalse => exact absurd h (by simp)
      | sep =>
          cases s with
          | nil => exact absurd h (by simp [consume])
          | cons x s' =>
              simp only [consume] at h
              split at h
              case isTrue hx =>
                obtain ⟨p, hp, heq⟩ := Option.map_eq_some'.mp h
                simp only [Prod.mk.injEq] at heq
                rw [← heq.1]
                simp only [List.length_cons, ih _ _ _ hp]
                simp [shapeLen, atomLen]
                omega
              case isFalse => exact absurd h (by simp)

theorem consume_chars : ∀ (sh : List Atom) (s sp r : List Char),
    consume sh s = some (sp, r) →
    ∀ c ∈ sp, c.isDigit = true ∨ sepChar c = true ∨ Atom.lit c ∈ sh := by
  intro sh
  induction sh with
  | nil =>
      intro s sp r h c hc
      simp only [consume, Option.some.injEq, Prod.mk.injEq] at h
      rw [← h.1] at hc
      simp at hc
  | cons a as ih =>
      intro s sp r h c hc
      cases a with
      | digits n =>
          simp only [consume] at h
          split at h
          case isTrue hcond =>
            obtain ⟨p, hp, heq⟩ := Option.map_eq_some'.mp h
            simp only [Prod.mk.injEq] at heq
            rw [← heq.1] at hc
            rcases List.mem_append.mp hc with hd | hrest
            · left
              have hall := hcond.2
              exact List.all_eq_true.mp hall c hd
            · rcases ih _ _ _ hp c hrest with h1 | h2 | h3
              · exact Or.inl h1
              · exact Or.inr (Or.inl h2)
              · exact Or.inr (Or.inr (List.mem_cons_of_mem _ h3))
          case isFalse => exact absurd h (by simp)
      | lit l =>
          cases s with
          | nil => exact absurd h (by simp [consume])
          | cons x s' =>
              simp only [consume] at h
              split at h
              case isTrue hx =>
                obtain ⟨p, hp, heq⟩ := Option.map_eq_some'.mp h
                simp only [Prod.mk.injEq] at heq
                rw [← heq.1] at hc
                rcases List.mem_cons.mp hc with hc1 | hrest
                · right; right
                  rw [hc1, hx]
                  exact List.mem_cons_self _ _
                · rcases ih _ _ _ hp c hrest with h1 | h2 | h3
                  · exact Or.inl h1
                  · exact Or.inr (Or.inl h2)
                  · exact Or.inr (Or.inr (List.mem_cons_of_mem _ h3))
              case isFalse => exact absurd h (by simp)
      | sep =>
          cases s with
          | nil => exact absurd h (by simp [consume])
          | cons x s' =>
              simp only [consume] at h
              split at h
              case isTrue hx =>
                obtain ⟨p, hp, heq⟩ := Option.map_eq_some'.mp h
                simp only [Prod.mk.injEq] at heq
                rw [← heq.1] at hc
                rcases List.mem_cons.mp hc with hc1 | hrest
                · right; left
                  rw [hc1]
                  exact hx
                · rcases ih _ _ _ hp c hrest with h1 | h2 | h3
                  · exact Or.inl h1
                  · exact Or.inr (Or.inl h2)
                  · exact Or.inr (Or.inr (List.mem_cons_of_mem _ h3))
              case isFalse => exact absurd h (by simp)

theorem findSome?_some_mem {α β : Type} (f : α → Option β) :
    ∀ (l : List α) (y : β), l.findSome? f = some y → ∃ x ∈ l, f x = some y := by
  intro l
  induction l with
  | nil => intro y h; simp [List.findSome?] at h
  | cons a l ih =>
      intro y h
      cases hfa : f a with
      | some b =>
          simp only [List.findSome?_cons, hfa] at h
          exact ⟨a, List.mem_cons_self _ _, by rw [hfa, h]⟩
      | none =>
          simp only [List.findSome?_cons, hfa] at h
          obtain ⟨x, hx, hfx⟩ := ih y h
          exact ⟨x, List.mem_cons_of_mem _ hx, hfx⟩

theorem findSome?_isSome_of_mem {α β : Type} (f : α → Option β) :
    ∀ (l : List α) (x : α), x ∈ l → (f x).isSome → (l.findSome? f).isSome := by
  intro l
  induction l with
  | nil => intro x hx; simp at hx
  | cons a l ih =>
      intro x hx hfx
      cases hfa : f a with
      | some b => simp [List.findSome?_cons, hfa]
      | none =>
          simp only [List.findSome?_cons, hfa]
          rcases List.mem_cons.mp hx with h1 | h2
          · rw [h1, hfa] at hfx
            simp at hfx
          · exact ih x h2 hfx

theorem shapeMatch_some (sh : List Atom) (pw : Bool) (s : List Char) (n : ℕ)
    (h : shapeMatch sh pw s = some n) :
    ∃ sp r, consume sh s = some (sp, r) ∧ n = sp.length ∧ sp ≠ [] ∧
      ¬(pw = wordOpt sp.head?) ∧ ¬(wordOpt sp.getLast? = wordOpt r.head?) := by
  unfold shapeMatch at h
  cases hc : consume sh s with
  | none => rw [hc] at h; simp at h
  | some p =>
      rw [hc] at h
      dsimp only at h
      split at h
      case isTrue hcond =>
        refine ⟨p.1, p.2, by simp [hc], ?_, hcond.1, ?_, ?_⟩
        · injection h with h'
          exact h'.symm
        · have := hcond.2.1
          simpa using this
        · have := hcond.2.2
          simpa using this
      case isFalse => simp at h

theorem patM_sound (shapes : List (List Atom))
    (hlen2 : ∀ sh ∈ shapes, 2 ≤ shapeLen sh)
    (pw : Bool) (s : List Char) (n : ℕ) (h : patM shapes pw s = some n) :
    2 ≤ n ∧ n ≤ s.length ∧ shapeOk shapes pw (s.take n) (wordOpt (s.drop n).head?) := by
  obtain ⟨sh, hsh, hm⟩ := findSome?_some_mem _ _ _ h
  obtain ⟨sp, r, hc, hn, hne, hfst, hlst⟩ := shapeMatch_some sh pw s n hm
  have hsplit := consume_split _ _ _ _ hc
  have htake : s.take n = sp := by
    rw [hsplit, hn, List.take_left]
  have hdrop : s.drop n = r := by
    rw [hsplit, hn, List.drop_left]
  have hlen := consume_len _ _ _ _ hc
  refine ⟨by rw [hn, hlen]; exact hlen2 sh hsh, by rw [hsplit, hn]; simp, ?_⟩
  rw [htake, hdrop]
  exact ⟨sh, hsh, consume_exact _ _ _ _ hc, hfst, hlst⟩

theorem patM_complete (shapes : List (List Atom))
    (hlen2 : ∀ sh ∈ shapes, 2 ≤ shapeLen sh)
    (pw : Bool) (span rest : List Char)
    (hok : shapeOk shapes pw span (wordOpt rest.head?)) :
    (patM shapes pw (span ++ rest)).isSome := by
  obtain ⟨sh, hsh, hc, hfst, hlst⟩ := hok
  have hext := consume_extend _ _ rest hc
  have hne : span ≠ [] := by
    intro hcon
    have := consume_len _ _ _ _ hc
    rw [hcon] at this
    have h2 := hlen2 sh hsh
    simp at this
    omega
  apply findSome?_isSome_of_mem _ _ sh hsh
  unfold shapeMatch
  rw [hext]
  dsimp only
  rw [if_pos ⟨hne, by simpa using hfst, by simpa using hlst⟩]
  simp

theorem shapeOk_ne (shapes : List (List Atom))
    (hlen2 : ∀ sh ∈ shapes, 2 ≤ shapeLen sh)
    (pw : Bool) (span : List Char) (w : Bool) (hok : shapeOk shapes pw span w) :
    span ≠ [] := by
  obtain ⟨sh, hsh, hc, _, _⟩ := hok
  intro hcon
  have := consume_len _ _ _ _ hc
  rw [hcon] at this
  have h2 := hlen2 sh hsh
  simp at this
  omega

theorem shapeOk_chars (shapes : List (List Atom))
    (hlits : shapes.all (fun sh => sh.all (fun a =>
      match a with | Atom.lit l => digitSepChar l | _ => true)) = true)
    (pw : Bool) (span : List Char) (w : Bool) (hok : shapeOk shapes pw span w) :
    ∀ c ∈ span, digitSepChar c = true := by
  obtain ⟨sh, hsh, hc, _, _⟩ := hok
  intro c hcm
  rcases consume_chars _ _ _ _ hc c hcm with h1 | h2 | h3
  · simp [digitSepChar, h1]
  · simp [digitSepChar, h2]
  · have hall := List.all_eq_true.mp hlits sh hsh
    have := List.all_eq_true.mp hall _ h3
    simpa using this

theorem shape_laws (shapes : List (List Atom))
    (hlen2 : ∀ sh ∈ shapes, 2 ≤ shapeLen sh)
    (hlits : shapes.all (fun sh => sh.all (fun a =>
      match a with | Atom.lit l => digitSepChar l | _ => true)) = true) :
    PatLaws ⟨patM shapes, shapeOk shapes, digitSepChar⟩ where
  sound := patM_sound shapes hlen2
  complete := patM_complete shapes hlen2
  ok_ne := shapeOk_ne shapes hlen2
  ok_chars := shapeOk_chars shapes hlits
  ok_first := fun pw span w hok => hok.choose_spec.2.2.1
  ok_last := fun pw span w hok => hok.choose_spec.2.2.2
  charset_lb := by
    show digitSepChar '[' = false
    decide

theorem laws_SSN : PatLaws specSSN :=
  shape_laws ssnShapes (by decide) (by decide)

theorem laws_PHONE : PatLaws specPHONE :=
  shape_laws phoneShapes (by decide) (by decide)

theorem laws_ACCT : PatLaws specACCT :=
  shape_laws acctShapes (by decide) (by decide)

/-! ## C4 / C7 groundwork : laws of the email matcher -/

theorem descFind_eq_some {α : Type} (f : ℕ → Option α) :
    ∀ (K : ℕ) (r : α), descFind f K = some r → ∃ k, 1 ≤ k ∧ k ≤ K ∧ f k = some r := by
  intro K
  induction K with
  | zero => intro r h; simp [descFind] at h
  | succ K ih =>
      intro r h
      cases hf : f (K + 1) with
      | some b =>
          simp only [descFind, hf] at h
          exact ⟨K + 1, by omega, le_refl _, by rw [hf, h]⟩
      | none =>
          simp only [descFind, hf] at h
          obtain ⟨j, h1, h2, h3⟩ := ih r h
          exact ⟨j, h1, by omega, h3⟩

theorem descFind_isSome {α : Type} (f : ℕ → Option α) :
    ∀ (K k : ℕ), 1 ≤ k → k ≤ K → (f k).isSome → (descFind f K).isSome := by
  intro K
  induction K with
  | zero => intro k h1 h2 _; omega
  | succ K ih =>
      intro k h1 h2 hf
      cases hfk : f (K + 1) with
      | some b => simp [descFind, hfk]
      | none =>
          simp only [descFind, hfk]
          by_cases hk : k = K + 1
          · rw [hk, hfk] at hf
            simp at hf
          · exact ih k h1 (by omega) hf

theorem takeWhile_append_eq (p : Char → Bool) :
    ∀ (a r : List Char), (∀ x ∈ a, p x = true) →
    (∀ c, r.head? = some c → p c = false) → (a ++ r).takeWhile p = a := by
  intro a
  induction a with
  | nil =>
      intro r _ hr
      cases r with
      | nil => rfl
      | cons c r' =>
          simp [List.takeWhile_cons, hr c rfl]
  | cons x a' ih =>
      intro r ha hr
      simp [List.takeWhile_cons, ha x (List.mem_cons_self _ _),
        ih r (fun y hy => ha y (List.mem_cons_of_mem _ hy)) hr]

theorem drop_of_get? (l : List Char) (k : ℕ) (x : Char) (h : l.get? k = some x) :
    l.drop k = x :: l.drop (k + 1) := by
  induction l generalizing k with
  | nil => simp at h
  | cons y ys ih =>
      cases k with
      | zero =>
          simp only [List.get?] at h
          injection h with h'
          rw [h']
          rfl
      | succ k' =>
          simp only [List.get?] at h
          simp only [List.drop_succ_cons]
          exact ih k' h

theorem getLast?_append_right (l1 l2 : List Char) (h : l2 ≠ []) :
    (l1 ++ l2).getLast? = l2.getLast? := by
  rw [List.getLast?_append]
  have hs : l2.getLast?.isSome := List.getLast?_isSome.mpr h
  obtain ⟨x, hx⟩ := Option.isSome_iff_exists.mp hs
  rw [hx]
  rfl

theorem emailM_sound (pw : Bool) (s : List Char) (n : ℕ) (h : emailM pw s = some n) :
    2 ≤ n ∧ n ≤ s.length ∧ emailOk pw (s.take n) (wordOpt (s.drop n).head?) := by
  unfold emailM at h
  cases hA : s.takeWhile localChar with
  | nil => rw [hA] at h; simp at h
  | cons c a' =>
      rw [hA] at h
      dsimp only at h
      cases hb : pw == wordChar c with
      | true => rw [hb] at h; simp at h
      | false =>
          rw [hb] at h
          simp only [Bool.false_eq_true, if_false] at h
          split at h
          case h_2 => simp at h
          case h_1 s2 heq =>
            obtain ⟨m, hdesc, hn⟩ := Option.map_eq_some'.mp h
            obtain ⟨k, hk1, hkK, hfk⟩ := descFind_eq_some _ _ _ hdesc
            rw [if_pos hk1] at hfk
            split at hfk
            case isFalse => simp at hfk
            case isTrue hcond1 =>
              obtain ⟨j, hj1, hjJ, hfj⟩ := descFind_eq_some _ _ _ hfk
              split at hfj
              case isFalse => simp at hfj
              case isTrue h2j =>
                split at hfj
                case isFalse => simp at hfj
                case isTrue hcond2 =>
                  have hm : k + 1 + j = m := by injection hfj
                  have hblen : (s2.take k).length = k := hcond1.1
                  have hdot : s2.get? k = some '.' := hcond1.2.2
                  have hc2len : ((s2.drop (k + 1)).take j).length = j := hcond2.1
                  have hkl : k < s2.length := (List.get?_eq_some.mp hdot).1
                  have hjl : j ≤ s2.length - (k + 1) := by
                    have h5 := hc2len
                    simp only [List.length_take, List.length_drop] at h5
                    omega
                  have hpre : (c :: a') <+: s := by
                    rw [← hA]; exact List.takeWhile_prefix _
                  have hs : s = (c :: a') ++ '@' :: s2 := by
                    conv_lhs => rw [← List.take_append_drop (c :: a').length s]
                    rw [← List.prefix_iff_eq_take.mp hpre, heq]
                  have hdk : s2.drop k = '.' :: s2.drop (k + 1) :=
                    drop_of_get? _ _ _ hdot
                  have hjdrop : (s2.drop (k + 1)).drop j = s2.drop (k + 1 + j) := by
                    rw [List.drop_drop]
                    try congr 1
                    try omega
                  have hs2 : s2 = s2.take k ++ '.' :: ((s2.drop (k + 1)).take j ++
                      s2.drop (k + 1 + j)) := by
                    conv_lhs => rw [← List.take_append_drop k s2]
                    rw [hdk]
                    congr 1
                    rw [← hjdrop]
                    rw [List.take_append_drop]
                  have hnval : n = (c :: a').length + 1 + (k + 1 + j) := by omega
                  have e3 : s2.take (k + 1 + j) = s2.take k ++ '.' ::
                      (s2.drop (k + 1)).take j := by
                    conv_lhs => rw [hs2]
                    rw [show k + 1 + j = (s2.take k).length + (1 + j) by rw [hblen]; omega]
                    rw [List.take_append]
                    rw [show 1 + j = j + 1 by omega]
                    rw [List.take_succ_cons]
                    congr 2
                    have h7 := List.take_left ((s2.drop (k + 1)).take j)
                      (s2.drop (k + 1 + j))
                    rw [hc2len] at h7
                    rw [hblen]
                    rw [show k + (j + 1) = k + 1 + j by omega]
                    exact h7
                  have htake : s.take n = (c :: a') ++ '@' :: (s2.take k ++ '.' ::
                      (s2.drop (k + 1)).take j) := by
                    rw [hs, hnval]
                    rw [show (c :: a').length + 1 + (k + 1 + j) =
                      (c :: a').length + (1 + (k + 1 + j)) by omega]
                    rw [List.take_append]
                    rw [show 1 + (k + 1 + j) = (k + 1 + j) + 1 by omega]
                    rw [List.take_succ_cons]
                    rw [e3]
                  have hdropn : s.drop n = s2.drop (k + 1 + j) := by
                    rw [hs, hnval]
                    rw [show (c :: a').length + 1 + (k + 1 + j) =
                      (c :: a').length + (1 + (k + 1 + j)) by omega]
                    rw [List.drop_append]
                    rw [show (1 + (k + 1 + j)) = (k + 1 + j) + 1 by omega]
                    rw [List.drop_succ_cons]
                  have hc2ne : (s2.drop (k + 1)).take j ≠ [] := by
                    intro hcon
                    rw [hcon] at hc2len
                    simp at hc2len
                    omega
                  refine ⟨by omega, ?_, ?_⟩
                  · have hls : s.length = (c :: a').length + 1 + s2.length := by
                      rw [hs]
                      simp only [List.length_append, List.length_cons]
                      omega
                    omega
                  · refine ⟨c :: a', s2.take k, (s2.drop (k + 1)).take j,
                      htake, by simp, ?_, ?_, ?_, by omega, ?_, ?_, ?_⟩
                    · intro x hx
                      rw [← hA] at hx
                      exact List.mem_takeWhile_imp hx
                    · intro hcon
                      rw [hcon] at hblen
                      simp at hblen
                      omega
                    · intro x hx
                      exact List.all_eq_true.mp hcond1.2.1 x hx
                    · intro x hx
                      exact List.all_eq_true.mp hcond2.2.1 x hx
                    · rw [htake]
                      simp only [List.head?_cons, wordOpt, Option.map_some',
                        Option.getD_some]
                      intro hcon
                      rw [hcon] at hb
                      simp at hb
                    · rw [htake, hdropn]
                      have hgl : ((c :: a') ++ '@' :: (s2.take k ++ '.' ::
                          (s2.drop (k + 1)).take j)).getLast? =
                          ((s2.drop (k + 1)).take j).getLast? := by
                        rw [getLast?_append_right _ _ (by simp)]
                        rw [show ('@' :: (s2.take k ++ '.' :: (s2.drop (k + 1)).take j))
                          = ['@'] ++ (s2.take k ++ '.' :: (s2.drop (k + 1)).take j)
                          from rfl]
                        rw [getLast?_append_right _ _ (by simp)]
                        rw [getLast?_append_right _ _ (by simp)]
                        rw [show ('.' :: (s2.drop (k + 1)).take j)
                          = ['.'] ++ (s2.drop (k + 1)).take j from rfl]
                        rw [getLast?_append_right _ _ hc2ne]
                      rw [hgl]
                      have h6 := hcond2.2.2
                      intro hcon
                      rw [hcon] at h6
                      simp at h6

theorem emailM_complete (pw : Bool) (span rest : List Char)
    (hok : emailOk pw span (wordOpt rest.head?)) :
    (emailM pw (span ++ rest)).isSome := by
  obtain ⟨a, b, c, hspan, hane, haloc, hbne, hbdom, hclen, hctld, hfst, hlst⟩ := hok
  obtain ⟨a0, a1, ha01⟩ := List.exists_cons_of_ne_nil hane
  have hcne : c ≠ [] := by
    intro hcon
    rw [hcon] at hclen
    simp at hclen
  have hsrw : span ++ rest = a ++ '@' :: (b ++ '.' :: (c ++ rest)) := by
    rw [hspan]
    simp
  have htw : (span ++ rest).takeWhile localChar = a := by
    rw [hsrw]
    exact takeWhile_append_eq _ _ _ haloc (fun x hx => by
      injection hx with hx'
      rw [← hx']
      decide)
  have hdropa : (span ++ rest).drop a.length = '@' :: (b ++ '.' :: (c ++ rest)) := by
    rw [hsrw]
    exact List.drop_left _ _
  have hs2 : b ++ '.' :: (c ++ rest) = (b ++ ['.']) ++ (c ++ rest) := by simp
  have hdropb1 : (b ++ '.' :: (c ++ rest)).drop (b.length + 1) = c ++ rest := by
    rw [hs2]
    rw [show b.length + 1 = (b ++ ['.']).length by simp]
    exact List.drop_left _ _
  have hheadspan : span.head? = some a0 := by
    rw [hspan, ha01]
    rfl
  have hlastspan : span.getLast? = c.getLast? := by
    rw [hspan]
    rw [getLast?_append_right _ _ (by simp)]
    rw [show ('@' :: (b ++ '.' :: c)) = ['@'] ++ (b ++ '.' :: c) from rfl]
    rw [getLast?_append_right _ _ (by simp)]
    rw [getLast?_append_right _ _ (by simp)]
    rw [show ('.' :: c) = ['.'] ++ c from rfl]
    rw [getLast?_append_right _ _ hcne]
  unfold emailM
  simp only [htw, ha01]
  have hbeq : (pw == wordChar a0) = false := by
    simp only [beq_eq_false_iff_ne, ne_eq]
    intro hcon
    apply hfst
    rw [hheadspan]
    simpa [wordOpt] using hcon
  rw [hbeq]
  simp only [Bool.false_eq_true, if_false]
  rw [← ha01, hdropa]
  change (Option.map (fun m => a.length + 1 + m) _).isSome
  rw [Option.isSome_map']
  set s2 := b ++ '.' :: (c ++ rest) with hs2def
  have hs2len : s2.length = b.length + 1 + c.length + rest.length := by
    rw [hs2def]
    simp
    omega
  apply descFind_isSome _ _ b.length (by
    have := List.length_pos.mpr hbne
    omega) (by omega)
  rw [if_pos (by have := List.length_pos.mpr hbne; omega)]
  have htkb : s2.take b.length = b := by
    rw [hs2def]
    exact List.take_left _ _
  have hgetb : s2.get? b.length = some '.' := by
    rw [hs2def]
    rw [List.get?_append_right (le_refl _)]
    simp
  rw [if_pos ⟨by rw [htkb], by
      rw [htkb]
      exact List.all_eq_true.mpr hbdom, hgetb⟩]
  apply descFind_isSome _ _ c.length (by omega) (by
    rw [hs2def] at hs2len ⊢
    omega)
  rw [if_pos hclen]
  have hdropc : s2.drop (b.length + 1) = c ++ rest := by
    rw [hs2def]
    exact hdropb1
  have htkc : (s2.drop (b.length + 1)).take c.length = c := by
    rw [hdropc]
    exact List.take_left _ _
  have hdropcr : s2.drop (b.length + 1 + c.length) = rest := by
    have hsplit : s2.drop (b.length + 1 + c.length) = (s2.drop (b.length + 1)).drop c.length := by
      rw [List.drop_drop]
      try (congr 1; omega)
    rw [hsplit, hdropc]
    exact List.drop_left _ _
  rw [if_pos ⟨by rw [htkc], by
      rw [htkc]
      exact List.all_eq_true.mpr hctld, by
      rw [htkc, hdropcr]
      simp only [bne_iff_ne, ne_eq]
      intro hcon
      exact hlst (by rw [hlastspan, hcon])⟩]
  simp

theorem emailOk_ne (pw : Bool) (span : List Char) (w : Bool) (hok : emailOk pw span w) :
    span ≠ [] := by
  obtain ⟨a, b, c, hspan, _, _, _, _, _, _, _, _⟩ := hok
  rw [hspan]
  simp

theorem emailOk_chars (pw : Bool) (span : List Char) (w : Bool) (hok : emailOk pw span w) :
    ∀ x ∈ span, emailChar x = true := by
  obtain ⟨a, b, c, hspan, _, haloc, _, hbdom, _, hctld, _, _⟩ := hok
  intro x hx
  rw [hspan] at hx
  simp only [List.mem_append, List.mem_cons] at hx
  unfold emailChar
  rcases hx with hx | hx | hx | hx | hx
  · simp [haloc x hx]
  · simp [hx]
  · simp [hbdom x hx]
  · simp [hx]
  · simp [hctld x hx]

theorem emailOk_first (pw : Bool) (span : List Char) (w : Bool) (hok : emailOk pw span w) :
    ¬(pw = wordOpt span.head?) := by
  obtain ⟨a, b, c, _, _, _, _, _, _, _, hfst, _⟩ := hok
  exact hfst

theorem emailOk_last (pw : Bool) (span : List Char) (w : Bool) (hok : emailOk pw span w) :
    ¬(wordOpt span.getLast? = w) := by
  obtain ⟨a, b, c, _, _, _, _, _, _, _, _, hlst⟩ := hok
  exact hlst

theorem laws_EMAIL : PatLaws specEMAIL where
  sound := emailM_sound
  complete := emailM_complete
  ok_ne := emailOk_ne
  ok_chars := emailOk_chars
  ok_first := emailOk_first
  ok_last := emailOk_last
  charset_lb := by
    show emailChar '[' = false
    decide

/-! ## C4 / C7 groundwork : generic lemmas about `searchF` and `subAll` -/

theorem searchF_nil (M : Bool → List Char → Option ℕ) (pw : Bool) :
    searchF M pw [] = false := rfl

theorem searchF_cons (M : Bool → List Char → Option ℕ) (pw : Bool) (c : Char)
    (cs : List Char) :
    searchF M pw (c :: cs) = ((M pw (c :: cs)).isSome || searchF M (wordChar c) cs) := rfl

theorem prevAfter_cons (pw : Bool) (c : Char) (t : List Char) :
    prevAfter pw (c :: t) = prevAfter (wordChar c) t := by
  cases t with
  | nil => rfl
  | cons d t' =>
      show wordChar ((d :: t').getLastD c) = wordChar (t'.getLastD d)
      congr 1
      cases t' with
      | nil => rfl
      | cons e t'' =>
          simp only [List.getLastD_eq_getLast?, List.getLast?_cons_cons]
          obtain ⟨x, hx⟩ := Option.isSome_iff_exists.mp
            (List.getLast?_isSome.mpr (by simp : (e :: t'') ≠ []))
          rw [hx]
          rfl

theorem prevAfter_append (pw : Bool) (x y : List Char) :
    prevAfter pw (x ++ y) = prevAfter (prevAfter pw x) y := by
  induction x generalizing pw with
  | nil => rfl
  | cons c t ih => rw [List.cons_append, prevAfter_cons, ih, prevAfter_cons]

theorem prevAfter_eq_getLast (pw : Bool) (x : List Char) (hx : x ≠ []) :
    prevAfter pw x = wordOpt x.getLast? := by
  induction x generalizing pw with
  | nil => exact absurd rfl hx
  | cons c t ih =>
      cases t with
      | nil => rfl
      | cons d t' =>
          rw [prevAfter_cons, ih _ (by simp), List.getLast?_cons_cons]

theorem searchF_true_intro (M : Bool → List Char → Option ℕ) :
    ∀ (u v : List Char) (pw : Bool), v ≠ [] → (M (prevAfter pw u) v).isSome = true →
      searchF M pw (u ++ v) = true := by
  intro u
  induction u with
  | nil =>
      intro v pw hv h
      cases v with
      | nil => exact absurd rfl hv
      | cons c cs =>
          rw [List.nil_append, searchF_cons]
          rw [show prevAfter pw [] = pw from rfl] at h
          simp [h]
  | cons c t ih =>
      intro v pw hv h
      rw [List.cons_append, searchF_cons]
      rw [prevAfter_cons] at h
      simp [ih v (wordChar c) hv h]

theorem searchF_true_elim (M : Bool → List Char → Option ℕ) :
    ∀ (l : List Char) (pw : Bool), searchF M pw l = true →
      ∃ u v, l = u ++ v ∧ v ≠ [] ∧ (M (prevAfter pw u) v).isSome = true := by
  intro l
  induction l with
  | nil => intro pw h; rw [searchF_nil] at h; exact absurd h (by simp)
  | cons c cs ih =>
      intro pw h
      rw [searchF_cons] at h
      simp only [Bool.or_eq_true] at h
      rcases h with h0 | h1
      · exact ⟨[], c :: cs, rfl, by simp, h0⟩
      · obtain ⟨u, v, he, hv, hm⟩ := ih (wordChar c) h1
        exact ⟨c :: u, v, by rw [List.cons_append, he], hv,
          by rw [prevAfter_cons]; exact hm⟩

theorem searchF_false_intro (M : Bool → List Char → Option ℕ) :
    ∀ (l : List Char) (pw : Bool),
      (∀ u v, l = u ++ v → v ≠ [] → M (prevAfter pw u) v = none) →
      searchF M pw l = false := by
  intro l
  induction l with
  | nil => intro pw _; rfl
  | cons c cs ih =>
      intro pw h
      rw [searchF_cons]
      have h0 : M pw (c :: cs) = none := h [] (c :: cs) rfl (by simp)
      rw [h0]
      simp only [Option.isSome_none, Bool.false_or]
      exact ih (wordChar c) (fun u v he hv => by
        have hx := h (c :: u) v (by rw [List.cons_append, he]) hv
        rwa [prevAfter_cons] at hx)

theorem searchF_suffix (M : Bool → List Char → Option ℕ) (x y : List Char) (pw : Bool)
    (h : searchF M pw (x ++ y) = false) : searchF M (prevAfter pw x) y = false := by
  cases hc : searchF M (prevAfter pw x) y with
  | false => rfl
  | true =>
      obtain ⟨u, v, he, hv, hm⟩ := searchF_true_elim M y (prevAfter pw x) hc
      rw [← prevAfter_append] at hm
      have ht := searchF_true_intro M (x ++ u) v pw hv hm
      rw [List.append_assoc, ← he] at ht
      rw [h] at ht
      exact absurd ht (by simp)

theorem searchF_ctx (M : Bool → List Char → Option ℕ) (l : List Char) (pw1 pw2 : Bool)
    (h0 : (M pw2 l).isSome = false)
    (h : searchF M pw1 l = false) : searchF M pw2 l = false := by
  cases l with
  | nil => rfl
  | cons c cs =>
      rw [searchF_cons] at h ⊢
      simp only [Bool.or_eq_false_iff] at h ⊢
      exact ⟨h0, h.2⟩

theorem append_eq_split {α : Type} (u v x y : List α) (h : u ++ v = x ++ y)
    (hl : u.length ≤ x.length) : ∃ w, x = u ++ w ∧ v = w ++ y := by
  refine ⟨x.drop u.length, ?_, ?_⟩
  · have h1 : (u ++ v).take u.length = u := List.take_left u v
    rw [h] at h1
    rw [List.take_append_eq_append_take, Nat.sub_eq_zero_of_le hl] at h1
    simp only [List.take_zero, List.append_nil] at h1
    conv_lhs => rw [← List.take_append_drop u.length x]
    rw [h1]
  · have h2 : (u ++ v).drop u.length = v := List.drop_left u v
    rw [h] at h2
    rw [List.drop_append_eq_append_drop, Nat.sub_eq_zero_of_le hl] at h2
    rw [List.drop_zero] at h2
    exact h2.symm

theorem head?_take (l : List Char) (m : ℕ) (hm : 0 < m) :
    (l.take m).head? = l.head? := by
  cases l with
  | nil => simp
  | cons c cs =>
      cases m with
      | zero => omega
      | succ m' => rfl

theorem subAll_nil (M : Bool → List Char → Option ℕ) (tok : List Char) (pw : Bool) :
    subAll M tok pw [] = [] := by
  unfold subAll
  rfl

theorem subAll_cons (M : Bool → List Char → Option ℕ) (tok : List Char) (pw : Bool)
    (c : Char) (cs : List Char) :
    subAll M tok pw (c :: cs) =
      match M pw (c :: cs) with
      | none => c :: subAll M tok (wordChar c) cs
      | some n => tok ++ subAll M tok (wordChar ((cs.take (n - 1)).getLastD c))
          (cs.drop (n - 1)) := by
  conv_lhs => unfold subAll

/-- A shape that contains a nonempty digit block only matches spans that
contain a digit. -/
theorem consume_digit : ∀ (sh : List Atom) (s sp r : List Char),
    consume sh s = some (sp, r) →
    (sh.any fun a => match a with
      | Atom.digits k => decide (1 ≤ k) | _ => false) = true →
    ∃ c ∈ sp, c.isDigit = true := by
  intro sh
  induction sh with
  | nil => intro s sp r h hany; simp at hany
  | cons a as ih =>
      intro s sp r h hany
      cases a with
      | digits n =>
          simp only [consume] at h
          split at h
          case isTrue hcond =>
            obtain ⟨p, hp, heq⟩ := Option.map_eq_some'.mp h
            simp only [Prod.mk.injEq] at heq
            by_cases hn : 1 ≤ n
            · have hlen : (s.take n).length = n := hcond.1
              have hne : s.take n ≠ [] := by
                intro hcon
                rw [hcon] at hlen
                simp at hlen
                omega
              obtain ⟨c, hc⟩ := List.exists_mem_of_ne_nil _ hne
              refine ⟨c, ?_, List.all_eq_true.mp hcond.2 c hc⟩
              rw [← heq.1]
              exact List.mem_append.mpr (Or.inl hc)
            · have hany' : (as.any fun a => match a with
                  | Atom.digits k => decide (1 ≤ k) | _ => false) = true := by
                simp only [List.any_cons, Bool.or_eq_true] at hany
                rcases hany with h1 | h2
                · exact absurd (of_decide_eq_true h1) hn
                · exact h2
              obtain ⟨c, hcm, hcd⟩ := ih _ _ _ hp hany'
              refine ⟨c, ?_, hcd⟩
              rw [← heq.1]
              exact List.mem_append.mpr (Or.inr hcm)
          case isFalse => exact absurd h (by simp)
      | lit l =>
          cases s with
          | nil => exact absurd h (by simp [consume])
          | cons x s' =>
              simp only [consume] at h
              split at h
              case isTrue hx =>
                obtain ⟨p, hp, heq⟩ := Option.map_eq_some'.mp h
                simp only [Prod.mk.injEq] at heq
                have hany' : (as.any fun a => match a with
                    | Atom.digits k => decide (1 ≤ k) | _ => false) = true := by
                  simp only [List.any_cons, Bool.or_eq_true] at hany
                  rcases hany with h1 | h2
                  · exact absurd h1 (by simp)
                  · exact h2
                obtain ⟨c, hcm, hcd⟩ := ih _ _ _ hp hany'
                refine ⟨c, ?_, hcd⟩
                rw [← heq.1]
                exact List.mem_cons_of_mem _ hcm
              case isFalse => exact absurd h (by simp)
      | sep =>
          cases s with
          | nil => exact absurd h (by simp [consume])
          | cons x s' =>
              simp only [consume] at h
              split at h
              case isTrue hx =>
                obtain ⟨p, hp, heq⟩ := Option.map_eq_some'.mp h
                simp only [Prod.mk.injEq] at heq
                have hany' : (as.any fun a => match a with
                    | Atom.digits k => decide (1 ≤ k) | _ => false) = true := by
                  simp only [List.any_cons, Bool.or_eq_true] at hany
                  rcases hany with h1 | h2
                  · exact absurd h1 (by simp)
                  · exact h2
                obtain ⟨c, hcm, hcd⟩ := ih _ _ _ hp hany'
                refine ⟨c, ?_, hcd⟩
                rw [← heq.1]
                exact List.mem_cons_of_mem _ hcm
              case isFalse => exact absurd h (by simp)

/-- Every span matched by a digit-bearing shape list contains a digit. -/
theorem shapeOk_digit (shapes : List (List Atom))
    (hd : (shapes.all fun sh => sh.any fun a => match a with
      | Atom.digits k => decide (1 ≤ k) | _ => false) = true) :
    ∀ pw span w, shapeOk shapes pw span w → ∃ c ∈ span, c.isDigit = true := by
  intro pw span w hok
  obtain ⟨sh, hsh, hcons, _, _⟩ := hok
  exact consume_digit sh span span [] hcons (List.all_eq_true.mp hd sh hsh)

/-- Every email span contains the at-sign. -/
theorem emailOk_at (pw : Bool) (span : List Char) (w : Bool) (hok : emailOk pw span w) :
    ∃ c ∈ span, (c == '@') = true := by
  obtain ⟨a, b, c, hspan, _, _, _, _, _, _, _, _⟩ := hok
  refine ⟨'@', ?_, by decide⟩
  rw [hspan]
  simp

/-- Structure of one `subAll` step: either no match anywhere (identity), or
the input splits as unmatched prefix `p`, first match `q`, and remainder
`rest`, with the output `p ++ tok ++ subAll … rest`. -/
theorem subAll_decomp (M : Bool → List Char → Option ℕ) (tok : List Char)
    (hM2 : ∀ pw s n, M pw s = some n → 1 ≤ n ∧ n ≤ s.length) :
    ∀ (s : List Char) (pw : Bool),
      (subAll M tok pw s = s ∧
        ∀ u v, s = u ++ v → v ≠ [] → M (prevAfter pw u) v = none)
    ∨ (∃ p q rest, s = p ++ (q ++ rest) ∧ q ≠ [] ∧
        M (prevAfter pw p) (q ++ rest) = some q.length ∧
        (∀ u v, p = u ++ v → v ≠ [] → M (prevAfter pw u) (v ++ (q ++ rest)) = none) ∧
        subAll M tok pw s = p ++ (tok ++ subAll M tok (prevAfter pw (p ++ q)) rest)) := by
  intro s
  induction s with
  | nil =>
      intro pw
      left
      refine ⟨subAll_nil M tok pw, ?_⟩
      intro u v he hv
      exact absurd (List.append_eq_nil.mp he.symm).2 hv
  | cons c cs ih =>
      intro pw
      cases hM : M pw (c :: cs) with
      | none =>
          rcases ih (wordChar c) with ⟨heq, hnone⟩ | ⟨p, q, rest, hsp, hq, hm, hnom, heq⟩
          · left
            constructor
            · rw [subAll_cons]
              simp only [hM]
              rw [heq]
            · intro u v he hv
              cases u with
              | nil =>
                  rw [List.nil_append] at he
                  rw [show prevAfter pw [] = pw from rfl, ← he]
                  exact hM
              | cons c' u' =>
                  rw [List.cons_append] at he
                  injection he with h1 h2
                  subst h1
                  rw [prevAfter_cons]
                  exact hnone u' v h2 hv
          · right
            refine ⟨c :: p, q, rest, ?_, hq, ?_, ?_, ?_⟩
            · rw [List.cons_append, ← hsp]
            · rw [prevAfter_cons]
              exact hm
            · intro u v he hv
              cases u with
              | nil =>
                  rw [List.nil_append] at he
                  rw [show prevAfter pw [] = pw from rfl, ← he]
                  rw [List.cons_append, ← hsp]
                  exact hM
              | cons c' u' =>
                  rw [List.cons_append] at he
                  injection he with h1 h2
                  subst h1
                  rw [prevAfter_cons]
                  exact hnom u' v h2 hv
            · rw [subAll_cons]
              simp only [hM]
              rw [heq]
              simp only [List.cons_append, prevAfter_cons]
      | some n =>
          obtain ⟨hn1, hn2⟩ := hM2 pw (c :: cs) n hM
          cases n with
          | zero => omega
          | succ m =>
              simp only [List.length_cons] at hn2
              right
              refine ⟨[], c :: cs.take m, cs.drop m, ?_, by simp, ?_, ?_, ?_⟩
              · rw [List.nil_append, List.cons_append, List.take_append_drop]
              · show M (prevAfter pw []) ((c :: cs.take m) ++ cs.drop m) =
                  some (c :: cs.take m).length
                rw [show prevAfter pw [] = pw from rfl, List.cons_append,
                  List.take_append_drop, hM]
                rw [List.length_cons, List.length_take, Nat.min_eq_left (by omega)]
              · intro u v he hv
                exact absurd (List.append_eq_nil.mp he.symm).2 hv
              · rw [subAll_cons]
                simp only [hM]
                simp only [Nat.add_sub_cancel, List.nil_append]
                rfl

theorem mem_of_head? (l : List Char) (a : Char) (h : l.head? = some a) : a ∈ l := by
  cases l with
  | nil => exact absurd h (by simp)
  | cons c cs =>
      rw [List.head?_cons] at h
      injection h with h'
      rw [← h']
      exact List.mem_cons_self _ _

theorem get?_last (l : List Char) (hl : l ≠ []) : l.get? (l.length - 1) = l.getLast? := by
  induction l with
  | nil => exact absurd rfl hl
  | cons c cs ih =>
      cases cs with
      | nil => rfl
      | cons d ds =>
          have ih2 := ih (by simp)
          simp only [List.length_cons, Nat.add_sub_cancel] at ih2
          rw [List.getLast?_cons_cons]
          simp only [List.length_cons, Nat.add_sub_cancel]
          rw [List.get?_cons_succ]
          exact ih2

/-- The head of a substituted string is either the original head or the head
of the replacement token. -/
theorem subAll_head (M : Bool → List Char → Option ℕ) (tok : List Char)
    (htokne : tok ≠ []) (pw : Bool) (s : List Char) :
    (subAll M tok pw s).head? = s.head? ∨ (subAll M tok pw s).head? = tok.head? := by
  cases s with
  | nil => left; rw [subAll_nil]
  | cons c cs =>
      rw [subAll_cons]
      cases hM : M pw (c :: cs) with
      | none => simp only [hM]; left; rfl
      | some n =>
          simp only [hM]
          right
          cases tok with
          | nil => exact absurd rfl htokne
          | cons t ts => rfl

/-- After a substitution the scan context in the output is the word-ness of
the token's last character (non-word); switching from the original context
to that one cannot create a match at the resume position. -/
theorem switch_ctx_out (P Q : PatSpec) (LP : PatLaws P)
    (tok : List Char) (htokne : tok ≠ []) (hhead : tok.head? = some '[')
    (q rest : List Char) (pw2 : Bool)
    (hpw2 : pw2 = wordOpt q.getLast?)
    (hql : ¬(wordOpt q.getLast? = wordOpt rest.head?))
    (hrec : searchF P.M pw2 (subAll Q.M tok pw2 rest) = false) :
    searchF P.M false (subAll Q.M tok pw2 rest) = false := by
  by_cases hpwv : pw2 = true
  · rw [hpwv] at hrec ⊢
    refine searchF_ctx P.M _ true false ?_ hrec
    cases hmo : (P.M false (subAll Q.M tok true rest)).isSome with
    | false => rfl
    | true =>
        exfalso
        obtain ⟨mlen, hmeq⟩ := Option.isSome_iff_exists.mp hmo
        obtain ⟨hm2, hmle, hok⟩ := LP.sound false (subAll Q.M tok true rest) mlen hmeq
        have hhd : ((subAll Q.M tok true rest).take mlen).head? =
            (subAll Q.M tok true rest).head? :=
          head?_take _ mlen (by omega)
        have hfst := LP.ok_first _ _ _ hok
        have hqlt : wordOpt q.getLast? = true := by
          rw [← hpw2]
          exact hpwv
        have hrw : wordOpt rest.head? = false := by
          cases hwr : wordOpt rest.head? with
          | false => rfl
          | true => exact absurd (by rw [hqlt, hwr]) hql
        rcases subAll_head Q.M tok htokne true rest with hh | hh
        · apply hfst
          rw [hhd, hh, hrw]
        · have hmem : '[' ∈ (subAll Q.M tok true rest).take mlen :=
            mem_of_head? _ _ (by rw [hhd, hh, hhead])
          have hchar := LP.ok_chars _ _ _ hok '[' hmem
          rw [LP.charset_lb] at hchar
          exact absurd hchar (by simp)
  · have hpf : pw2 = false := by
      cases pw2
      · rfl
      · exact absurd rfl hpwv
    rw [hpf] at hrec ⊢
    exact hrec

/-- Main transfer theorem: substituting one PII pattern cannot create or
leave a match of a pattern `P` — provided `P` either had no match to begin
with (cross case) or is the substituted pattern itself (self case). -/
theorem search_subAll_false (P Q : PatSpec) (LP : PatLaws P) (LQ : PatLaws Q)
    (tok : List Char) (needs : Char → Bool)
    (hhead : tok.head? = some '[')
    (hlast : tok.getLast? = some ']')
    (hcsr : P.charset ']' = false)
    (hneed : ∀ ctx span w, P.Ok ctx span w → ∃ c ∈ span, needs c = true)
    (htokneeds : ∀ c ∈ tok, needs c = false) :
    ∀ (N : ℕ) (s : List Char) (pw : Bool), s.length ≤ N →
      (searchF P.M pw s = false ∨ P = Q) →
      searchF P.M pw (subAll Q.M tok pw s) = false := by
  have htokne : tok ≠ [] := by
    intro h
    rw [h] at hhead
    exact absurd hhead (by simp)
  have htokprev : ∀ b, prevAfter b tok = false := by
    intro b
    rw [prevAfter_eq_getLast b tok htokne, hlast]
    decide
  intro N
  induction N with
  | zero =>
      intro s pw hlen _
      have hs0 : s = [] := List.length_eq_zero.mp (Nat.le_zero.mp hlen)
      rw [hs0, subAll_nil]
      rfl
  | succ N ihN =>
      intro s pw hlen hside
      rcases subAll_decomp Q.M tok
        (fun pw' s' n' h' =>
          ⟨by have := (LQ.sound pw' s' n' h').1; omega, (LQ.sound pw' s' n' h').2.1⟩)
        s pw with ⟨heq, hnone⟩ | ⟨p, q, rest, hsp, hqne, hqm, hnom, heq⟩
      · rw [heq]
        rcases hside with hs | hPQ
        · exact hs
        · subst hPQ
          exact searchF_false_intro P.M s pw hnone
      · rw [heq]
        have hsound := LQ.sound (prevAfter pw p) (q ++ rest) q.length hqm
        have hqok : Q.Ok (prevAfter pw p) q (wordOpt rest.head?) := by
          have h1 : (q ++ rest).take q.length = q := List.take_left q rest
          have h2 : (q ++ rest).drop q.length = rest := List.drop_left q rest
          rw [h1, h2] at hsound
          exact hsound.2.2
        have hql : ¬(wordOpt q.getLast? = wordOpt rest.head?) :=
          LQ.ok_last _ _ _ hqok
        have hqf : ¬(prevAfter pw p = wordOpt q.head?) :=
          LQ.ok_first _ _ _ hqok
        have hrest_len : rest.length ≤ N := by
          have hl := congrArg List.length hsp
          simp only [List.length_append] at hl
          have hq1 : 1 ≤ q.length := List.length_pos.mpr hqne
          omega
        have hrest_side :
            searchF P.M (prevAfter pw (p ++ q)) rest = false ∨ P = Q := by
          rcases hside with hs | hPQ
          · left
            have hs' : searchF P.M pw ((p ++ q) ++ rest) = false := by
              rw [List.append_assoc, ← hsp]
              exact hs
            exact searchF_suffix P.M (p ++ q) rest pw hs'
          · right
            exact hPQ
        have hrec : searchF P.M (prevAfter pw (p ++ q))
            (subAll Q.M tok (prevAfter pw (p ++ q)) rest) = false :=
          ihN rest (prevAfter pw (p ++ q)) hrest_len hrest_side
        have hpw2 : prevAfter pw (p ++ q) = wordOpt q.getLast? := by
          rw [prevAfter_append, prevAfter_eq_getLast _ q hqne]
        have hout_false : searchF P.M false
            (subAll Q.M tok (prevAfter pw (p ++ q)) rest) = false :=
          switch_ctx_out P Q LP tok htokne hhead q rest _ hpw2 hql hrec
        cases hcon : searchF P.M pw
            (p ++ (tok ++ subAll Q.M tok (prevAfter pw (p ++ q)) rest)) with
        | false => rfl
        | true =>
            exfalso
            obtain ⟨u, v, hev, hvne, hvm⟩ := searchF_true_elim P.M _ pw hcon
            have hfin : ∀ w', p = u ++ w' → w' ≠ [] →
                (P.M (prevAfter pw u) (w' ++ (q ++ rest))).isSome = true → False := by
              intro w' hpw' hwne' hcomp'
              rcases hside with hs | hPQ
              · have hne2 : w' ++ (q ++ rest) ≠ [] := by
                  intro hc
                  rcases List.append_eq_nil.mp hc with ⟨hw0, _⟩
                  exact hwne' hw0
                have hsu : u ++ (w' ++ (q ++ rest)) = s := by
                  rw [hsp, hpw', List.append_assoc]
                have ht := searchF_true_intro P.M u _ pw hne2 hcomp'
                rw [hsu, hs] at ht
                exact absurd ht (by simp)
              · subst hPQ
                rw [hnom u w' hpw' hwne'] at hcomp'
                exact absurd hcomp' (by simp)
            rcases le_or_lt u.length p.length with hA | hBC
            · -- the match starts inside the unmatched prefix
              obtain ⟨w, hpw_, hv⟩ := append_eq_split u v p
                (tok ++ subAll Q.M tok (prevAfter pw (p ++ q)) rest) hev.symm hA
              obtain ⟨mlen, hmeq⟩ := Option.isSome_iff_exists.mp hvm
              obtain ⟨hm2, hmle, hok⟩ := LP.sound _ v mlen hmeq
              rcases lt_trichotomy mlen w.length with hmw | hmw | hmw
              · -- match ends strictly inside the prefix: same match in the input
                have hwne : w ≠ [] := by
                  intro hc
                  rw [hc] at hmw
                  simp at hmw
                have hspan : v.take mlen = w.take mlen := by
                  rw [hv, List.take_append_eq_append_take,
                    Nat.sub_eq_zero_of_le (by omega)]
                  simp
                have hnext : (v.drop mlen).head? = (w.drop mlen).head? := by
                  rw [hv, List.drop_append_eq_append_drop,
                    Nat.sub_eq_zero_of_le (by omega), List.drop_zero]
                  cases hwd : w.drop mlen with
                  | nil =>
                      exfalso
                      have hl := congrArg List.length hwd
                      simp at hl
                      omega
                  | cons a t => rfl
                have hh2 : ((w.drop mlen) ++ (q ++ rest)).head? =
                    (w.drop mlen).head? := by
                  cases hwd : w.drop mlen with
                  | nil =>
                      exfalso
                      have hl := congrArg List.length hwd
                      simp at hl
                      omega
                  | cons a t => rfl
                have hokO : P.Ok (prevAfter pw u) (v.take mlen)
                    (wordOpt ((w.drop mlen) ++ (q ++ rest)).head?) := by
                  rw [hh2, ← hnext]
                  exact hok
                have hcomp := LP.complete (prevAfter pw u) (v.take mlen)
                  ((w.drop mlen) ++ (q ++ rest)) hokO
                have hwsplit : v.take mlen ++ ((w.drop mlen) ++ (q ++ rest)) =
                    w ++ (q ++ rest) := by
                  rw [hspan, ← List.append_assoc, List.take_append_drop]
                rw [hwsplit] at hcomp
                exact hfin w hpw_ hwne hcomp
              · -- match ends exactly at the seam before the token
                have hwne : w ≠ [] := by
                  intro hc
                  rw [hc] at hmw
                  simp at hmw
                  omega
                have hspan : v.take mlen = w := by
                  rw [hv, hmw]
                  exact List.take_left w _
                have htokhd : (tok ++ subAll Q.M tok (prevAfter pw (p ++ q))
                    rest).head? = some '[' := by
                  cases tok with
                  | nil => exact absurd rfl htokne
                  | cons t ts =>
                      rw [List.head?_cons] at hhead
                      rw [List.cons_append, List.head?_cons]
                      exact hhead
                have hnext : (v.drop mlen).head? = some '[' := by
                  rw [hv, hmw, List.drop_left]
                  exact htokhd
                rw [hspan, hnext] at hok
                have hok' : P.Ok (prevAfter pw u) w false := by
                  rw [show wordOpt (some '[') = false from by decide] at hok
                  exact hok
                have hwlast : wordOpt w.getLast? = true := by
                  have hnl := LP.ok_last _ _ _ hok'
                  cases hwl : wordOpt w.getLast? with
                  | false => exact absurd hwl hnl
                  | true => rfl
                have hpA : prevAfter pw p = true := by
                  rw [hpw_, prevAfter_append, prevAfter_eq_getLast _ w hwne, hwlast]
                have hqh : wordOpt q.head? = false := by
                  cases hq0 : wordOpt q.head? with
                  | false => rfl
                  | true => exact absurd (by rw [hpA, hq0]) hqf
                have hokO : P.Ok (prevAfter pw u) w (wordOpt (q ++ rest).head?) := by
                  have hqr : (q ++ rest).head? = q.head? := by
                    cases q with
                    | nil => exact absurd rfl hqne
                    | cons a t => rfl
                  rw [hqr, hqh]
                  exact hok'
                have hcomp := LP.complete (prevAfter pw u) w (q ++ rest) hokO
                exact hfin w hpw_ hwne hcomp
              · -- match would cross into the token: spans the bracket
                have hbr : v.get? w.length = some '[' := by
                  rw [hv, List.get?_append_right (le_refl w.length), Nat.sub_self]
                  cases tok with
                  | nil => exact absurd rfl htokne
                  | cons t ts =>
                      rw [List.head?_cons] at hhead
                      injection hhead with ht
                      rw [List.cons_append]
                      rw [ht]
                      rfl
                have hmem : '[' ∈ v.take mlen := by
                  have h1 : (v.take mlen).get? w.length = v.get? w.length :=
                    List.get?_take hmw
                  exact List.get?_mem (by rw [h1, hbr])
                have hchar := LP.ok_chars _ _ _ hok '[' hmem
                rw [LP.charset_lb] at hchar
                exact absurd hchar (by simp)
            · have hple : p.length ≤ u.length := by omega
              obtain ⟨t1, hu1, htv⟩ := append_eq_split p
                (tok ++ subAll Q.M tok (prevAfter pw (p ++ q)) rest) u v hev hple
              rcases lt_or_le t1.length tok.length with hB | hC
              · -- the match starts inside the token
                obtain ⟨t2, htok2, hv2⟩ := append_eq_split t1 v tok
                  (subAll Q.M tok (prevAfter pw (p ++ q)) rest) htv.symm (le_of_lt hB)
                have ht2ne : t2 ≠ [] := by
                  intro hc
                  rw [hc, List.append_nil] at htok2
                  have := congrArg List.length htok2
                  omega
                obtain ⟨mlen, hmeq⟩ := Option.isSome_iff_exists.mp hvm
                obtain ⟨hm2, hmle, hok⟩ := LP.sound _ v mlen hmeq
                rcases le_or_lt mlen t2.length with hm1 | hm1
                · -- match inside the token: needs a witness char the token lacks
                  obtain ⟨c, hcm, hcn⟩ := hneed _ _ _ hok
                  have hcin : c ∈ tok := by
                    have hteq : v.take mlen = t2.take mlen := by
                      rw [hv2, List.take_append_eq_append_take,
                        Nat.sub_eq_zero_of_le hm1]
                      simp
                    rw [hteq] at hcm
                    rw [htok2]
                    exact List.mem_append.mpr (Or.inr (List.take_subset _ _ hcm))
                  rw [htokneeds c hcin] at hcn
                  exact absurd hcn (by simp)
                · -- match crosses the closing bracket of the token
                  have hjl : t2.length - 1 < t2.length := by
                    have := List.length_pos.mpr ht2ne
                    omega
                  have hbr : v.get? (t2.length - 1) = some ']' := by
                    rw [hv2, List.get?_append hjl, get?_last t2 ht2ne]
                    rw [← getLast?_append_right t1 t2 ht2ne, ← htok2]
                    exact hlast
                  have hmem : ']' ∈ v.take mlen := by
                    have h1 : (v.take mlen).get? (t2.length - 1) =
                        v.get? (t2.length - 1) :=
                      List.get?_take (by omega)
                    exact List.get?_mem (by rw [h1, hbr])
                  have hchar := LP.ok_chars _ _ _ hok ']' hmem
                  rw [hcsr] at hchar
                  exact absurd hchar (by simp)
              · -- the match lies inside the already-substituted remainder
                obtain ⟨u2, ht1, hout2⟩ := append_eq_split tok
                  (subAll Q.M tok (prevAfter pw (p ++ q)) rest) t1 v htv hC
                have hctx : prevAfter pw u = prevAfter false u2 := by
                  rw [hu1, ht1, prevAfter_append, prevAfter_append, htokprev]
                have hsf : searchF P.M false
                    (subAll Q.M tok (prevAfter pw (p ++ q)) rest) = true := by
                  rw [hout2]
                  refine searchF_true_intro P.M u2 v false hvne ?_
                  rw [← hctx]
                  exact hvm
                rw [hout_false] at hsf
                exact absurd hsf (by simp)

/-- A single search-guarded substitution pass kills (or preserves the
absence of) matches of `P`. -/
theorem pass_kills (P Q : PatSpec) (LP : PatLaws P) (LQ : PatLaws Q)
    (tok : List Char) (needs : Char → Bool)
    (hhead : tok.head? = some '[') (hlast : tok.getLast? = some ']')
    (hcsr : P.charset ']' = false)
    (hneed : ∀ ctx span w, P.Ok ctx span w → ∃ c ∈ span, needs c = true)
    (htokneeds : ∀ c ∈ tok, needs c = false)
    (x : List Char) (hx : searchF P.M false x = false ∨ P = Q) :
    searchF P.M false (piiPass Q.M tok x) = false := by
  unfold piiPass
  cases hs : searchF Q.M false x with
  | true =>
      rw [if_pos rfl]
      exact search_subAll_false P Q LP LQ tok needs hhead hlast hcsr hneed htokneeds
        x.length x false (le_refl _) hx
  | false =>
      simp only [Bool.false_eq_true, if_false]
      rcases hx with h | hPQ
      · exact h
      · subst hPQ
        exact hs

/-- The text component of `scrub_free_text` is the four guarded passes in
pattern-table order. -/
theorem scrub_data (t : String) :
    (scrub_free_text t).1.data =
      piiPass acctM tokACCT (piiPass phoneM tokPHONE
        (piiPass emailM tokEMAIL (piiPass ssnM tokSSN t.data))) := by
  have hstep : ∀ (a : List Char × List String)
      (M : Bool → List Char → Option ℕ) (tk : List Char) (lbl : String),
      ((if searchF M false a.1 then (subAll M tk false a.1, a.2 ++ [lbl])
        else a) : List Char × List String).1 = piiPass M tk a.1 := by
    intro a M tk lbl
    unfold piiPass
    by_cases h : searchF M false a.1 = true
    · rw [if_pos h, if_pos h]
    · rw [if_neg h, if_neg h]
  simp only [scrub_free_text, piiPasses, List.foldl]
  rw [hstep, hstep, hstep]
  have hbase : (if searchF ssnM false t.data = true
      then (subAll ssnM tokSSN false t.data, ([] : List String) ++ ["ssn"])
      else (t.data, ([] : List String))).1 = piiPass ssnM tokSSN t.data := by
    unfold piiPass
    by_cases h : searchF ssnM false t.data = true
    · rw [if_pos h, if_pos h]
    · rw [if_neg h, if_neg h]
  rw [hbase]

/-- When no pattern occurs, `scrub_free_text` is the identity with no
redaction labels. -/
theorem scrub_id (x : String)
    (h1 : searchF ssnM false x.data = false)
    (h2 : searchF emailM false x.data = false)
    (h3 : searchF phoneM false x.data = false)
    (h4 : searchF acctM false x.data = false) :
    scrub_free_text x = (x, []) := by
  simp only [scrub_free_text, piiPasses, List.foldl, h1, h2, h3, h4,
    Bool.false_eq_true, if_false]

/-- After `scrub_free_text`, none of the four PII patterns matches the
output text. -/
theorem scrub_free_text_clean (t : String) :
    searchF ssnM false (scrub_free_text t).1.data = false ∧
    searchF emailM false (scrub_free_text t).1.data = false ∧
    searchF phoneM false (scrub_free_text t).1.data = false ∧
    searchF acctM false (scrub_free_text t).1.data = false := by
  rw [scrub_data t]
  set x1 := piiPass ssnM tokSSN t.data with hx1
  set x2 := piiPass emailM tokEMAIL x1 with hx2
  set x3 := piiPass phoneM tokPHONE x2 with hx3
  have hS1 : searchF ssnM false x1 = false := by
    rw [hx1]
    exact pass_kills specSSN specSSN laws_SSN laws_SSN tokSSN Char.isDigit
      (by decide) (by decide) (by decide)
      (shapeOk_digit ssnShapes (by decide)) (by decide) t.data (Or.inr rfl)
  have hS2 : searchF ssnM false x2 = false := by
    rw [hx2]
    exact pass_kills specSSN specEMAIL laws_SSN laws_EMAIL tokEMAIL Char.isDigit
      (by decide) (by decide) (by decide)
      (shapeOk_digit ssnShapes (by decide)) (by decide) x1 (Or.inl hS1)
  have hE2 : searchF emailM false x2 = false := by
    rw [hx2]
    exact pass_kills specEMAIL specEMAIL laws_EMAIL laws_EMAIL tokEMAIL
      (fun c => c == '@') (by decide) (by decide) (by decide)
      emailOk_at (by decide) x1 (Or.inr rfl)
  have hS3 : searchF ssnM false x3 = false := by
    rw [hx3]
    exact pass_kills specSSN specPHONE laws_SSN laws_PHONE tokPHONE Char.isDigit
      (by decide) (by decide) (by decide)
      (shapeOk_digit ssnShapes (by decide)) (by decide) x2 (Or.inl hS2)
  have hE3 : searchF emailM false x3 = false := by
    rw [hx3]
    exact pass_kills specEMAIL specPHONE laws_EMAIL laws_PHONE tokPHONE
      (fun c => c == '@') (by decide) (by decide) (by decide)
      emailOk_at (by decide) x2 (Or.inl hE2)
  have hP3 : searchF phoneM false x3 = false := by
    rw [hx3]
    exact pass_kills specPHONE specPHONE laws_PHONE laws_PHONE tokPHONE
      Char.isDigit (by decide) (by decide) (by decide)
      (shapeOk_digit phoneShapes (by decide)) (by decide) x2 (Or.inr rfl)
  refine ⟨?_, ?_, ?_, ?_⟩
  · exact pass_kills specSSN specACCT laws_SSN laws_ACCT tokACCT Char.isDigit
      (by decide) (by decide) (by decide)
      (shapeOk_digit ssnShapes (by decide)) (by decide) x3 (Or.inl hS3)
  · exact pass_kills specEMAIL specACCT laws_EMAIL laws_ACCT tokACCT
      (fun c => c == '@') (by decide) (by decide) (by decide)
      emailOk_at (by decide) x3 (Or.inl hE3)
  · exact pass_kills specPHONE specACCT laws_PHONE laws_ACCT tokACCT
      Char.isDigit (by decide) (by decide) (by decide)
      (shapeOk_digit phoneShapes (by decide)) (by decide) x3 (Or.inl hP3)
  · exact pass_kills specACCT specACCT laws_ACCT laws_ACCT tokACCT Char.isDigit
      (by decide) (by decide) (by decide)
      (shapeOk_digit acctShapes (by decide)) (by decide) x3 (Or.inr rfl)

/-- C4: for every input string, the scrubbed text returned by
`scrub_free_text` contains no remaining match of any of the four PII
pattern classes — a search with the SSN, email, phone or account-number
matcher over the output fails. -/
theorem c4_scrub_removes_all_pii (t : String) :
    searchF ssnM false (scrub_free_text t).1.data = false ∧
    searchF emailM false (scrub_free_text t).1.data = false ∧
    searchF phoneM false (scrub_free_text t).1.data = false ∧
    searchF acctM false (scrub_free_text t).1.data = false :=
  scrub_free_text_clean t

/-- C7: `scrub_free_text` is idempotent — applied to its own scrubbed
output it returns that text unchanged and reports no redacted classes. -/
theorem c7_scrub_idempotent (t : String) :
    scrub_free_text (scrub_free_text t).1 = ((scrub_free_text t).1, []) := by
  obtain ⟨h1, h2, h3, h4⟩ := scrub_free_text_clean t
  exact scrub_id _ h1 h2 h3 h4

end RiskMonitoring
